import Mathlib

/-!
Verification of the user-agent data-repair scripts.

Strings are modelled as `List Char` (`Str`); a text file is modelled as its
list of lines.  JSON values are modelled by the inductive `Json`, with
numbers as exact decimals `mantissa / 10 ^ scale` (IEEE floating point
rounding, `NaN` and `Infinity` literals are outside the model).  Python
dictionaries are modelled as ordered association lists with unique keys,
with `dictSet` giving Python's insertion-order update semantics.
-/

namespace UA

/-- A Python string, modelled as its list of characters. -/
abbrev Str := List Char

/-- The ASCII whitespace characters stripped by Python's no-argument
`str.strip` / `str.rstrip` (the unicode whitespace beyond ASCII never
occurs in the data and is not modelled). -/
def isPySpace (c : Char) : Bool :=
  c == ' ' || c == '\t' || c == '\n' || c == '\r' || c == '\x0b' || c == '\x0c'

/-- Remove the longest run of characters satisfying `p` from the front. -/
def lstripWith (p : Char → Bool) (s : Str) : Str := s.dropWhile p

/-- Remove the longest run of characters satisfying `p` from the back. -/
def rstripWith (p : Char → Bool) (s : Str) : Str := (s.reverse.dropWhile p).reverse

/-- Python `s.strip()` (no argument): both ends, all whitespace. -/
def pyStrip (s : Str) : Str := rstripWith isPySpace (lstripWith isPySpace s)

/-- Python `s.rstrip()` (no argument): trailing whitespace of every kind. -/
def pyRstrip (s : Str) : Str := rstripWith isPySpace s

/-- Python `s.rstrip(" ")`: trailing space characters (U+0020) only. -/
def rstripSpaces (s : Str) : Str := rstripWith (fun c => c == ' ') s

/-- Python `s.startswith(c)` for a one-character needle. -/
def pyStartswith (c : Char) (s : Str) : Bool :=
  match s with
  | [] => false
  | a :: _ => a == c

/-- Python `s.endswith(c)` for a one-character needle. -/
def pyEndswith (c : Char) (s : Str) : Bool := pyStartswith c s.reverse

/-- Whether `needle` occurs contiguously inside `hay`. -/
def strContains (needle hay : Str) : Bool :=
  hay.tails.any (fun t => needle.isPrefixOf t)

/-- Whether `s` contains two consecutive spaces (`"  " in s`). -/
def hasDoubleSpace (s : Str) : Bool := strContains [' ', ' '] s

/-- A JSON value.  Numbers carry an exact decimal `m / 10 ^ e`; objects are
insertion-ordered key/value lists (Python `dict`). -/
inductive Json where
  | null : Json
  | jbool (b : Bool) : Json
  | num (m : Int) (e : Nat) : Json
  | str (s : Str) : Json
  | arr (xs : List Json) : Json
  | obj (fields : List (Str × Json)) : Json

mutual

/-- Structural equality test on `Json` (decidability is derived from it). -/
def jsonEq : Json → Json → Bool
  | .null, .null => true
  | .jbool a, .jbool b => a == b
  | .num m e, .num m' e' => m == m' && e == e'
  | .str s, .str t => s == t
  | .arr xs, .arr ys => jsonListEq xs ys
  | .obj fs, .obj gs => jsonFieldsEq fs gs
  | _, _ => false

/-- Pointwise `jsonEq` on lists of values. -/
def jsonListEq : List Json → List Json → Bool
  | [], [] => true
  | x :: xs, y :: ys => jsonEq x y && jsonListEq xs ys
  | _, _ => false

/-- Pointwise `jsonEq` on field lists. -/
def jsonFieldsEq : List (Str × Json) → List (Str × Json) → Bool
  | [], [] => true
  | (k, v) :: fs, (k', v') :: gs => k == k' && jsonEq v v' && jsonFieldsEq fs gs
  | _, _ => false

end

mutual

theorem jsonEq_iff : ∀ a b : Json, jsonEq a b = true ↔ a = b
  | .null, b => by cases b <;> simp [jsonEq]
  | .jbool a, b => by cases b <;> simp [jsonEq]
  | .num m e, b => by cases b <;> simp [jsonEq]
  | .str s, b => by cases b <;> simp [jsonEq]
  | .arr xs, b => by
      cases b <;> simp [jsonEq]
      exact jsonListEq_iff xs _
  | .obj fs, b => by
      cases b <;> simp [jsonEq]
      exact jsonFieldsEq_iff fs _

theorem jsonListEq_iff : ∀ xs ys : List Json, jsonListEq xs ys = true ↔ xs = ys
  | [], ys => by cases ys <;> simp [jsonListEq]
  | x :: xs, ys => by
      cases ys <;> simp [jsonListEq]
      rw [jsonEq_iff, jsonListEq_iff]

theorem jsonFieldsEq_iff :
    ∀ fs gs : List (Str × Json), jsonFieldsEq fs gs = true ↔ fs = gs
  | [], gs => by cases gs <;> simp [jsonFieldsEq]
  | (k, v) :: fs, gs => by
      cases gs with
      | nil => simp [jsonFieldsEq]
      | cons p gs =>
          obtain ⟨k', v'⟩ := p
          simp [jsonFieldsEq, jsonEq_iff, jsonFieldsEq_iff fs gs, Prod.ext_iff, and_assoc]

end

instance : DecidableEq Json := fun a b => decidable_of_iff _ (jsonEq_iff a b)

/-- `d[k] = v` on an association list with Python `dict` semantics: an
existing key keeps its position and gets the new value, a new key is
appended at the end. -/
def dictSet (r : List (Str × Json)) (k : Str) (v : Json) : List (Str × Json) :=
  match r with
  | [] => [(k, v)]
  | (k', v') :: rest => if k' = k then (k, v) :: rest else (k', v') :: dictSet rest k v

/-- `d.get(k)` (`None` when absent). -/
def dictGet? (r : List (Str × Json)) (k : Str) : Option Json := List.lookup k r

/-- `d.get(k, default)`. -/
def dictGetD (r : List (Str × Json)) (k : Str) (d : Json) : Json := (dictGet? r k).getD d

/-- The field name the scripts normalize. -/
def uaKey : Str := ("useragent" : String).toList

/-! ### Serializer: `json.dumps(obj, ensure_ascii=False)`

Default separators `", "` and `": "`; strings escape `"` `\` and the ASCII
control range (with the two-character shorthands Python's encoder uses),
leaving every other character — ASCII or not — unescaped.  Numbers render
in plain positional decimal notation (the dataset's numbers are small, so
Python's scientific notation for extreme floats never arises). -/

/-- The decimal digit character for `k % 10`. -/
def digitCh (k : Nat) : Char := Char.ofNat (48 + k % 10)

/-- Decimal digit characters of `n`, most significant first, before `acc`. -/
def natDigitsAux (n : Nat) (acc : Str) : Str :=
  if h : n < 10 then digitCh n :: acc
  else natDigitsAux (n / 10) (digitCh n :: acc)
termination_by n
decreasing_by omega

/-- Decimal digit characters of `n`. -/
def natDigits (n : Nat) : Str := natDigitsAux n []

/-- Decimal rendering of an integer (Python `repr` of an `int`). -/
def intChars (i : Int) : Str := (if i < 0 then ['-'] else []) ++ natDigits i.natAbs

/-- Decimal rendering of `m / 10 ^ e`: an integer when `e = 0`, otherwise
digits with a decimal point placed `e` digits from the right, zero-padded
on the left so at least one digit precedes the point (Python `repr` of the
corresponding float, for values in the dataset's range). -/
def renderNum (m : Int) (e : Nat) : Str :=
  if e = 0 then intChars m
  else
    let ds := natDigits m.natAbs
    let padded := List.replicate (e + 1 - ds.length) '0' ++ ds
    (if m < 0 then ['-'] else []) ++
      (padded.take (padded.length - e) ++ '.' :: padded.drop (padded.length - e))

/-- Lowercase hexadecimal digit for `n < 16`. -/
def toHexLower (n : Nat) : Char :=
  if n < 10 then Char.ofNat (48 + n) else Char.ofNat (87 + n)

/-- How `json.dumps(…, ensure_ascii=False)` emits one character: the escape
table covers `"`, `\` and control characters (shorthands for the common
ones, `\u00xx` for the rest); everything else is emitted as itself. -/
def escChar (c : Char) : Str :=
  if c == '"' then ['\\', '"']
  else if c == '\\' then ['\\', '\\']
  else if c == '\n' then ['\\', 'n']
  else if c == '\r' then ['\\', 'r']
  else if c == '\t' then ['\\', 't']
  else if c == '\x08' then ['\\', 'b']
  else if c == '\x0c' then ['\\', 'f']
  else if c.toNat < 0x20 then
    ['\\', 'u', '0', '0', toHexLower (c.toNat / 16), toHexLower (c.toNat % 16)]
  else [c]

/-- A JSON string literal: quote, escaped characters, quote. -/
def dumpsStr (s : Str) : Str := '"' :: ((s.map escChar).flatten ++ ['"'])

mutual

/-- `json.dumps(v, ensure_ascii=False)` with the default separators. -/
def dumps : Json → Str
  | .null => ['n', 'u', 'l', 'l']
  | .jbool true => ['t', 'r', 'u', 'e']
  | .jbool false => ['f', 'a', 'l', 's', 'e']
  | .num m e => renderNum m e
  | .str s => dumpsStr s
  | .arr xs => '[' :: (dumpsElems xs ++ [']'])
  | .obj fs => '{' :: (dumpsFields fs ++ ['}'])

/-- Array elements, `", "`-separated. -/
def dumpsElems : List Json → Str
  | [] => []
  | x :: xs => dumps x ++ dumpsElemsTail xs

/-- The remaining array elements, each preceded by `", "`. -/
def dumpsElemsTail : List Json → Str
  | [] => []
  | x :: xs => ',' :: ' ' :: (dumps x ++ dumpsElemsTail xs)

/-- Object members, `", "`-separated, each `key": "value`. -/
def dumpsFields : List (Str × Json) → Str
  | [] => []
  | (k, v) :: fs => dumpsStr k ++ ':' :: ' ' :: (dumps v ++ dumpsFieldsTail fs)

/-- The remaining object members, each preceded by `", "`. -/
def dumpsFieldsTail : List (Str × Json) → Str
  | [] => []
  | (k, v) :: fs => ',' :: ' ' :: (dumpsStr k ++ ':' :: ' ' :: (dumps v ++ dumpsFieldsTail fs))

end

/-! ### Parser: `json.loads`

A fueled recursive-descent parser for the grammar `json.loads` accepts
(strict mode): leading zeros rejected, a fraction or exponent part only
consumed when complete, raw control characters inside strings rejected,
duplicate object keys resolved last-value-wins at the first key's position
(Python `dict` insertion).  `NaN`/`Infinity` literals and surrogate-pair
`\u` escapes denote IEEE values outside the model and are not handled.
Errors carry the parser diagnostic as a message string. -/

/-- The whitespace `json.loads` skips between tokens. -/
def isJsonWs (c : Char) : Bool := c == ' ' || c == '\t' || c == '\n' || c == '\r'

/-- Skip inter-token whitespace. -/
def skipWs (cs : Str) : Str := cs.dropWhile isJsonWs

/-- ASCII decimal digit test. -/
def isDigitCh (c : Char) : Bool := '0' ≤ c && c ≤ '9'

/-- Split off the leading run of decimal digits. -/
def takeDigits (cs : Str) : Str × Str := (cs.takeWhile isDigitCh, cs.dropWhile isDigitCh)

/-- The number a digit run denotes. -/
def digitsToNat (ds : Str) : Nat := ds.foldl (fun a c => a * 10 + (c.toNat - 48)) 0

/-- Value of one hexadecimal digit. -/
def hexVal? (c : Char) : Option Nat :=
  if '0' ≤ c && c ≤ '9' then some (c.toNat - 48)
  else if 'a' ≤ c && c ≤ 'f' then some (c.toNat - 87)
  else if 'A' ≤ c && c ≤ 'F' then some (c.toNat - 55)
  else none

/-- The character a two-character escape denotes. -/
def unescape? : Char → Option Char
  | '"' => some '"'
  | '\\' => some '\\'
  | '/' => some '/'
  | 'b' => some '\x08'
  | 'f' => some '\x0c'
  | 'n' => some '\n'
  | 'r' => some '\r'
  | 't' => some '\t'
  | _ => none

/-- String-body scanner, after the opening quote: handles escapes, rejects
raw control characters, stops at the closing quote. -/
def scanStr (acc : Str) : Str → Except String (Str × Str)
  | [] => .error "Unterminated string"
  | c :: rest =>
      if c = '"' then .ok (acc.reverse, rest)
      else if c = '\\' then
        match rest with
        | 'u' :: a :: b :: x :: d :: r =>
            match hexVal? a, hexVal? b, hexVal? x, hexVal? d with
            | some va, some vb, some vx, some vd =>
                scanStr (Char.ofNat (((va * 16 + vb) * 16 + vx) * 16 + vd) :: acc) r
            | _, _, _, _ => .error "Invalid \\uXXXX escape"
        | e :: r =>
            match unescape? e with
            | some ch => scanStr (ch :: acc) r
            | none => .error "Invalid \\escape"
        | [] => .error "Unterminated string"
      else if c.toNat < 0x20 then .error "Invalid control character"
      else scanStr (c :: acc) rest

/-- Strip trailing decimal zeros: the canonical form of `m / 10 ^ e`. -/
def normNum : Int → Nat → Int × Nat
  | m, 0 => (m, 0)
  | m, e + 1 => if m % 10 = 0 then normNum (m / 10) e else (m, e + 1)

/-- The integer part of a JSON number: a single `0`, or a digit run not
starting with `0` (the grammar `0|[1-9]\d*`). -/
def parseIntDigits : Str → Option (Str × Str)
  | [] => none
  | c :: r =>
      if c = '0' then some (['0'], r)
      else
        match takeDigits (c :: r) with
        | ([], _) => none
        | (ds, r') => some (ds, r')

/-- The fraction part `\.\d+`, if present and complete (an incomplete `.`
is left unconsumed, as the regex leaves it). -/
def parseFracPart : Str → Str × Str
  | [] => ([], [])
  | c :: r =>
      if c = '.' then
        match takeDigits r with
        | ([], _) => ([], c :: r)
        | (ds, r') => (ds, r')
      else ([], c :: r)

/-- An optionally signed digit run. -/
def parseSignedDigits : Str → Option (Int × Str)
  | [] => none
  | c :: r =>
      if c = '+' then
        match takeDigits r with
        | ([], _) => none
        | (ds, r') => some ((digitsToNat ds : Int), r')
      else if c = '-' then
        match takeDigits r with
        | ([], _) => none
        | (ds, r') => some (-(digitsToNat ds : Int), r')
      else
        match takeDigits (c :: r) with
        | ([], _) => none
        | (ds, r') => some ((digitsToNat ds : Int), r')

/-- The exponent part `[eE][+-]?\d+`, if present and complete; an
incomplete one is left unconsumed. -/
def parseExpPart : Str → Int × Str
  | [] => (0, [])
  | c :: r =>
      if c = 'e' ∨ c = 'E' then
        match parseSignedDigits r with
        | some (k, r') => (k, r')
        | none => (0, c :: r)
      else (0, c :: r)

/-- Combine digits, fraction length and exponent into the canonical
decimal `(mantissa, scale)` the lexeme denotes. -/
def applyExpo (scaled : Int) (fracLen : Nat) (expI : Int) : Int × Nat :=
  let net : Int := expI - (fracLen : Int)
  if 0 ≤ net then (scaled * (10 : Int) ^ net.toNat, 0)
  else normNum scaled net.natAbs

/-- The unsigned remainder of a number lexeme: integer digits, optional
fraction, optional exponent; the sign has already been consumed. -/
def parseNumTail (neg : Bool) (cs1 : Str) : Option ((Int × Nat) × Str) :=
  match parseIntDigits cs1 with
  | none => none
  | some (intDs, cs2) =>
      let (fracDs, cs3) := parseFracPart cs2
      let (expI, cs4) := parseExpPart cs3
      let scaled : Int := (if neg then -1 else 1) * (digitsToNat (intDs ++ fracDs) : Int)
      some (applyExpo scaled fracDs.length expI, cs4)

/-- A JSON number lexeme, as canonical decimal plus remainder. -/
def parseNum (cs : Str) : Option ((Int × Nat) × Str) :=
  match cs with
  | [] => none
  | c :: r => if c = '-' then parseNumTail true r else parseNumTail false (c :: r)

/-- Insert every parsed member into a Python dict, in order. -/
def buildDict (ps : List (Str × Json)) : List (Str × Json) :=
  ps.foldl (fun d kv => dictSet d kv.1 kv.2) []

mutual

/-- One JSON value (fueled; fuel decreases on every recursive entry). -/
def parseVal (fuel : Nat) (cs : Str) : Except String (Json × Str) :=
  match fuel with
  | 0 => .error "Out of fuel"
  | fuel + 1 =>
    match skipWs cs with
    | 'n' :: 'u' :: 'l' :: 'l' :: tl => .ok (.null, tl)
    | 't' :: 'r' :: 'u' :: 'e' :: r => .ok (.jbool true, r)
    | 'f' :: 'a' :: 'l' :: 's' :: 'e' :: r => .ok (.jbool false, r)
    | '"' :: r =>
        match scanStr [] r with
        | .ok (s, r') => .ok (.str s, r')
        | .error e => .error e
    | '[' :: r =>
        match skipWs r with
        | ']' :: r' => .ok (.arr [], r')
        | cs' =>
            match parseElems fuel cs' with
            | .ok (xs, r') => .ok (.arr xs, r')
            | .error e => .error e
    | '{' :: r =>
        match skipWs r with
        | '}' :: r' => .ok (.obj [], r')
        | cs' =>
            match parseMembers fuel cs' with
            | .ok (ps, r') => .ok (.obj (buildDict ps), r')
            | .error e => .error e
    | c :: r =>
        if c == '-' || isDigitCh c then
          match parseNum (c :: r) with
          | some (me, r') => .ok (.num me.1 me.2, r')
          | none => .error "Expecting value"
        else .error "Expecting value"
    | [] => .error "Expecting value"

/-- One-or-more `,`-separated array elements, up to the closing `]`. -/
def parseElems (fuel : Nat) (cs : Str) : Except String (List Json × Str) :=
  match fuel with
  | 0 => .error "Out of fuel"
  | fuel + 1 =>
    match parseVal fuel cs with
    | .error e => .error e
    | .ok (v, r) =>
        match skipWs r with
        | ',' :: r' =>
            match parseElems fuel r' with
            | .ok (vs, vr) => .ok (v :: vs, vr)
            | .error e => .error e
        | ']' :: r' => .ok ([v], r')
        | _ => .error "Expecting comma delimiter"

/-- One-or-more `,`-separated object members, up to the closing `}`. -/
def parseMembers (fuel : Nat) (cs : Str) :
    Except String (List (Str × Json) × Str) :=
  match fuel with
  | 0 => .error "Out of fuel"
  | fuel + 1 =>
    match skipWs cs with
    | '"' :: r =>
        match scanStr [] r with
        | .error e => .error e
        | .ok (k, r1) =>
            match skipWs r1 with
            | ':' :: r2 =>
                match parseVal fuel r2 with
                | .error e => .error e
                | .ok (v, r3) =>
                    match skipWs r3 with
                    | ',' :: r4 =>
                        match parseMembers fuel r4 with
                        | .ok (ps, r5) => .ok ((k, v) :: ps, r5)
                        | .error e => .error e
                    | '}' :: r4 => .ok ([(k, v)], r4)
                    | _ => .error "Expecting comma delimiter"
            | _ => .error "Expecting colon delimiter"
    | _ => .error "Expecting property name"

end

/-- `json.loads(line)`: one complete document, nothing but whitespace
after it.  The fuel bound suffices for any input the grammar accepts
(every two recursion levels consume at least one character). -/
def json_loads (line : Str) : Except String Json :=
  match parseVal (2 * line.length + 2) line with
  | .error e => .error e
  | .ok (j, r) => if skipWs r = [] then .ok j else .error "Extra data"

/-! ### Well-formed values

The invariant every value produced by `json_loads` satisfies: numbers are
in canonical decimal form and object keys are distinct (a Python `dict`
cannot hold duplicates).  Serializing and reparsing is the identity
exactly on these values. -/

/-- Canonical decimal: scale zero, or a mantissa not divisible by ten. -/
def wfNum (m : Int) (e : Nat) : Bool := e == 0 || !(m % 10 == 0)

/-- All keys distinct. -/
def noDupKeys : List (Str × Json) → Bool
  | [] => true
  | (k, _) :: fs => fs.all (fun p => !(p.1 == k)) && noDupKeys fs

mutual

/-- Well-formedness of a value (see above). -/
def Json.wf : Json → Bool
  | .null => true
  | .jbool _ => true
  | .num m e => wfNum m e
  | .str _ => true
  | .arr xs => jsonListWf xs
  | .obj fs => noDupKeys fs && jsonFieldsWf fs

/-- All elements well-formed. -/
def jsonListWf : List Json → Bool
  | [] => true
  | x :: xs => Json.wf x && jsonListWf xs

/-- All field values well-formed. -/
def jsonFieldsWf : List (Str × Json) → Bool
  | [] => true
  | (_, v) :: fs => Json.wf v && jsonFieldsWf fs

end

/-! ### The gpt-5.1-codex-max variant (`fixed_version.py`)

`_clean_record` reads `record.get("useragent", "")`, strips it with the
no-argument `str.strip`, and always assigns the result back.  `fix_file`
iterates the source lines with 1-based numbering, skips blank lines,
wraps JSON errors in a `ValueError` carrying the line number, and writes
each cleaned record as one `json.dumps(…, ensure_ascii=False)` line. -/

/-- The ways `fix_file` can terminate with an exception. -/
inductive GptError where
  | valueError (lineNo : Nat) (msg : String)
  | attributeError
deriving DecidableEq

/-- `_clean_record`: the non-`obj` and non-string branches model the
`AttributeError` Python raises on `payload.get` / `ua.strip()`. -/
def clean_record : Json → Option (Json × Bool)
  | Json.obj record =>
      match dictGetD record uaKey (Json.str []) with
      | Json.str ua =>
          let cleaned := pyStrip ua
          some (.obj (dictSet record uaKey (.str cleaned)), cleaned != ua)
      | _ => none
  | _ => none

/-- The record-collecting loop of `fix_file`, from line number `idx`:
yields the cleaned records and the count of changed ones. -/
def fixFileRecords : Nat → List Str → Except GptError (List Json × Nat)
  | _, [] => .ok ([], 0)
  | idx, line :: rest =>
      if pyStrip line = [] then fixFileRecords (idx + 1) rest
      else
        match json_loads line with
        | .error msg => .error (.valueError idx msg)
        | .ok payload =>
            match clean_record payload with
            | none => .error .attributeError
            | some (cleaned, changed) =>
                match fixFileRecords (idx + 1) rest with
                | .error e => .error e
                | .ok (recs, fixed) =>
                    .ok (cleaned :: recs, fixed + (if changed then 1 else 0))

/-- `fix_file`: target file contents (as lines) plus
`(total, fixed_count, unchanged_count)`. -/
def fix_file (lines : List Str) : Except GptError (List Str × (Nat × Nat × Nat)) :=
  match fixFileRecords 1 lines with
  | .error e => .error e
  | .ok (records, fixed) =>
      .ok (records.map dumps, (records.length, fixed, records.length - fixed))

/-! ### The oswe-large-m5a1s120 variant (`fixed_version.py`) -/

/-- The line loop of `load_jsonl`, from line number `idx`. -/
def load_jsonl_aux : Nat → List Str → Except (Nat × String) (List Json)
  | _, [] => .ok []
  | idx, line :: rest =>
      if pyStrip line = [] then load_jsonl_aux (idx + 1) rest
      else
        match json_loads line with
        | .error msg => .error (idx, msg)
        | .ok v =>
            match load_jsonl_aux (idx + 1) rest with
            | .ok vs => .ok (v :: vs)
            | .error e => .error e

/-- `load_jsonl`: all records, or the 1-based line number and diagnostic
of the first malformed line. -/
def load_jsonl (lines : List Str) : Except (Nat × String) (List Json) :=
  load_jsonl_aux 1 lines

/-- `save_jsonl`: one `json.dumps(…, ensure_ascii=False)` line per record. -/
def save_jsonl (records : List Json) : List Str := records.map dumps

/-- The loop body of `fix_useragents` for one record: `rec_copy = dict(rec)`
(a `TypeError` on a non-mapping, hence `none`), then `rstrip(" ")` on a
string `useragent`, assigned back only when it changed. -/
def fix_record : Json → Option (Json × Bool)
  | Json.obj rec =>
      match dictGet? rec uaKey with
      | some (Json.str ua) =>
          let cleaned := rstripSpaces ua
          if cleaned != ua then some (.obj (dictSet rec uaKey (.str cleaned)), true)
          else some (.obj rec, false)
      | _ => some (.obj rec, false)
  | _ => none

/-- `fix_useragents`: new record list plus the count fixed. -/
def fix_useragents (records : List Json) : Option (List Json × Nat) :=
  match records with
  | [] => some ([], 0)
  | rec :: rest =>
      match fix_record rec with
      | none => none
      | some (rc, changed) =>
          match fix_useragents rest with
          | none => none
          | some (rs, n) => some (rc :: rs, n + (if changed then 1 else 0))

/-! ### The Claude-Opus-4.5 variant (`fixed_version.py`) -/

/-- The per-record step of `fix_browsers_json`: `data.get('useragent', '')`,
then `rstrip()` only when the value ends with a space.  `none` models the
uncaught `AttributeError` on a non-dict line or non-string value. -/
def opus_fix_record : Json → Option (Json × Bool)
  | Json.obj data =>
      match dictGetD data uaKey (Json.str []) with
      | Json.str ua =>
          if pyEndswith ' ' ua then
            some (.obj (dictSet data uaKey (.str (pyRstrip ua))), true)
          else some (.obj data, false)
      | _ => none
  | _ => none

/-- `fix_browsers_json`: output lines plus
`(total_uas, fixed_uas, unchanged_uas, errors)`.  A line failing JSON
parse is reported, counted in `errors`, and skipped; the loop continues. -/
def fix_browsers_json (lines : List Str) : Option (List Str × (Nat × Nat × Nat × Nat)) :=
  match lines with
  | [] => some ([], (0, 0, 0, 0))
  | line :: rest =>
      let l := pyStrip line
      if l = [] then fix_browsers_json rest
      else
        match json_loads l with
        | .error _ =>
            match fix_browsers_json rest with
            | some (ls, (t, f, u, e)) => some (ls, (t, f, u, e + 1))
            | none => none
        | .ok data =>
            match opus_fix_record data with
            | none => none
            | some (fixedData, changed) =>
                match fix_browsers_json rest with
                | some (ls, (t, f, u, e)) =>
                    some (dumps fixedData :: ls,
                      (t + 1, f + (if changed then 1 else 0),
                       u + (if changed then 0 else 1), e))
                | none => none

/-! ### The fallback header validators of the `httpx` compatibility tests -/

/-- `_fallback_validator` (gpt variant's test): `true` iff it raises no
`ValueError` — no surrounding space and no ASCII control character. -/
def fallback_validator (ua : Str) : Bool :=
  if pyStartswith ' ' ua || pyEndswith ' ' ua then false
  else !(ua.any (fun ch => ch.toNat < 32 || ch.toNat == 127))

/-- `simple_header_validator` (oswe variant's test): the `isinstance`
check, the surrounding-space check, then membership of CR, LF and NUL. -/
def simple_header_validator : Json → Bool
  | Json.str ua =>
      if pyEndswith ' ' ua || pyStartswith ' ' ua then false
      else if ua.any (fun ch => ch == '\r' || ch == '\n' || ch == '\x00') then false
      else true
  | _ => false

/-! ### The spec's idealized rules, for comparison with the code -/

/-- The Field Normalizer rule of spec §4.2, as written: strip leading and
trailing space characters (U+0020) only — not tabs or newlines. -/
def spec_strip_spaces (s : Str) : Str :=
  rstripWith (fun c => c == ' ') (lstripWith (fun c => c == ' ') s)

/-- The header-compatibility fallback rule as the claim states it: valid
iff no leading/trailing space and no codepoint `< 0x20` or `= 0x7F`. -/
def spec_header_ok (s : Str) : Bool :=
  !(pyStartswith ' ' s) && !(pyEndswith ' ' s) &&
    s.all (fun c => !(c.toNat < 0x20 || c.toNat == 0x7f))

/-! ## Lemmas about stripping -/

theorem dropWhile_head_false {p : Char → Bool} :
    ∀ {l : Str} {c : Char}, (l.dropWhile p).head? = some c → p c = false := by
  intro l
  induction l with
  | nil => intro c h; simp at h
  | cons a t ih =>
      intro c h
      rw [List.dropWhile_cons] at h
      by_cases ha : p a = true
      · exact ih (by simpa [ha] using h)
      · simp only [ha, if_false] at h
        rw [Bool.not_eq_true] at ha
        cases h
        exact ha

theorem dropWhile_eq_self_of_head {p : Char → Bool} {l : Str}
    (h : ∀ c, l.head? = some c → p c = false) : l.dropWhile p = l := by
  cases l with
  | nil => rfl
  | cons a t => rw [List.dropWhile_cons, h a rfl]; simp

theorem dropWhile_idem (p : Char → Bool) (l : Str) :
    (l.dropWhile p).dropWhile p = l.dropWhile p :=
  dropWhile_eq_self_of_head (fun _ hc => dropWhile_head_false hc)

theorem rstripWith_reverse (p : Char → Bool) (s : Str) :
    (rstripWith p s).reverse = s.reverse.dropWhile p := by
  simp [rstripWith]

theorem rstripWith_idem (p : Char → Bool) (s : Str) :
    rstripWith p (rstripWith p s) = rstripWith p s := by
  unfold rstripWith
  rw [List.reverse_reverse, dropWhile_idem]

/-- Nothing at the end of `rstripWith p s` satisfies `p`. -/
theorem pyEndswith_rstripWith {p : Char → Bool} {c : Char} (hc : p c = true)
    (s : Str) : pyEndswith c (rstripWith p s) = false := by
  rw [pyEndswith, rstripWith_reverse]
  cases h : (s.reverse.dropWhile p).head? with
  | none =>
      cases hd : s.reverse.dropWhile p with
      | nil => rfl
      | cons a t => rw [hd] at h; simp at h
  | some a =>
      have ha := dropWhile_head_false h
      cases hd : s.reverse.dropWhile p with
      | nil => rfl
      | cons b t =>
          rw [hd] at h
          simp only [List.head?_cons, Option.some.injEq] at h
          subst h
          simp only [pyStartswith]
          rw [beq_eq_false_iff_ne]
          intro hbc
          rw [hbc, hc] at ha
          cases ha

/-- `rstripWith` only removes characters from the end. -/
theorem rstripWith_append (p : Char → Bool) (s : Str) :
    ∃ t, s = rstripWith p s ++ t ∧ ∀ c ∈ t, p c = true := by
  refine ⟨(s.reverse.takeWhile p).reverse, ?_, ?_⟩
  · conv_lhs => rw [← s.reverse_reverse, ← List.takeWhile_append_dropWhile p s.reverse]
    rw [List.reverse_append, rstripWith]
  · intro c hc
    rw [List.mem_reverse] at hc
    exact List.mem_takeWhile_imp hc

/-- The head survives `rstripWith`. -/
theorem head?_rstripWith {p : Char → Bool} {s : Str} {c : Char}
    (h : (rstripWith p s).head? = some c) : s.head? = some c := by
  obtain ⟨t, ht, _⟩ := rstripWith_append p s
  rw [ht]
  cases hr : rstripWith p s with
  | nil => rw [hr] at h; simp at h
  | cons a u => rw [hr] at h; simpa using h

theorem pyStrip_head_false {c : Char} {s : Str}
    (h : (pyStrip s).head? = some c) : isPySpace c = false := by
  rw [pyStrip] at h
  exact dropWhile_head_false (head?_rstripWith h)

theorem pyStrip_idem (s : Str) : pyStrip (pyStrip s) = pyStrip s := by
  have h1 : lstripWith isPySpace (pyStrip s) = pyStrip s :=
    dropWhile_eq_self_of_head (fun _ hc => pyStrip_head_false hc)
  show rstripWith isPySpace (lstripWith isPySpace (pyStrip s)) = pyStrip s
  rw [h1]
  exact rstripWith_idem isPySpace (lstripWith isPySpace s)

theorem rstripSpaces_idem (s : Str) : rstripSpaces (rstripSpaces s) = rstripSpaces s :=
  rstripWith_idem _ s

theorem rstripSpaces_no_trailing (s : Str) :
    pyEndswith ' ' (rstripSpaces s) = false :=
  pyEndswith_rstripWith (by decide) s

theorem pyStrip_no_trailing (s : Str) : pyEndswith ' ' (pyStrip s) = false :=
  pyEndswith_rstripWith (by decide) _

theorem pyRstrip_no_trailing (s : Str) : pyEndswith ' ' (pyRstrip s) = false :=
  pyEndswith_rstripWith (by decide) s

theorem pyStrip_no_leading (s : Str) : pyStartswith ' ' (pyStrip s) = false := by
  cases h : pyStrip s with
  | nil => rfl
  | cons a t =>
      have ha2 : isPySpace a = false := pyStrip_head_false (by rw [h]; rfl)
      simp only [pyStartswith]
      rw [beq_eq_false_iff_ne]
      intro ha
      rw [ha] at ha2
      cases ha2

/-! ## Lemmas about dictionaries -/

theorem beq_false_of_ne {a b : Str} (h : a ≠ b) : (a == b) = false := by
  rw [beq_eq_false_iff_ne]
  exact h

theorem dictSet_lookup (r : List (Str × Json)) (k : Str) (v : Json) :
    List.lookup k (dictSet r k v) = some v := by
  induction r with
  | nil => simp [dictSet, List.lookup]
  | cons p rest ih =>
      obtain ⟨k', v'⟩ := p
      rw [dictSet]
      by_cases h : k' = k
      · simp [h, List.lookup]
      · rw [if_neg h]
        simp only [List.lookup, beq_false_of_ne (fun he => h he.symm)]
        exact ih

theorem dictSet_self {r : List (Str × Json)} {k : Str} {v : Json}
    (h : List.lookup k r = some v) : dictSet r k v = r := by
  induction r with
  | nil => simp [List.lookup] at h
  | cons p rest ih =>
      obtain ⟨k', v'⟩ := p
      by_cases hk : k' = k
      · subst hk
        simp only [List.lookup, beq_self_eq_true, Option.some.injEq] at h
        subst h
        rw [dictSet, if_pos rfl]
      · simp only [List.lookup, beq_false_of_ne (fun he => hk he.symm)] at h
        rw [dictSet, if_neg hk, ih h]

theorem dictSet_absent {r : List (Str × Json)} {k : Str} (v : Json)
    (h : List.lookup k r = none) : dictSet r k v = r ++ [(k, v)] := by
  induction r with
  | nil => rfl
  | cons p rest ih =>
      obtain ⟨k', v'⟩ := p
      by_cases hk : k' = k
      · subst hk
        simp [List.lookup] at h
      · simp only [List.lookup, beq_false_of_ne (fun he => hk he.symm)] at h
        rw [dictSet, if_neg hk, ih h]
        simp

/-- Every field with a different key is untouched by `dictSet`. -/
theorem dictSet_filter_ne (r : List (Str × Json)) (k : Str) (v : Json) :
    (dictSet r k v).filter (fun p => !(p.1 == k)) =
      r.filter (fun p => !(p.1 == k)) := by
  induction r with
  | nil => simp [dictSet]
  | cons p rest ih =>
      obtain ⟨k', v'⟩ := p
      rw [dictSet]
      by_cases h : k' = k
      · subst h
        simp [List.filter]
      · rw [if_neg h]
        simp only [List.filter_cons, ih]

theorem lookup_eq_none_of_all {fs : List (Str × Json)} {k : Str}
    (h : fs.all (fun p => !(p.1 == k)) = true) : List.lookup k fs = none := by
  induction fs with
  | nil => rfl
  | cons p rest ih =>
      obtain ⟨k', v'⟩ := p
      rw [List.all_cons, Bool.and_eq_true] at h
      have hne : k' ≠ k := by
        have h1 := h.1
        simp only [Bool.not_eq_true', beq_eq_false_iff_ne] at h1
        exact h1
      simp only [List.lookup, beq_false_of_ne (fun he => hne he.symm)]
      exact ih h.2

theorem all_ne_of_lookup_none {fs : List (Str × Json)} {k : Str}
    (h : List.lookup k fs = none) : fs.all (fun p => !(p.1 == k)) = true := by
  induction fs with
  | nil => rfl
  | cons p rest ih =>
      obtain ⟨k', v'⟩ := p
      by_cases hk : k = k'
      · subst hk
        simp [List.lookup] at h
      · simp only [List.lookup, beq_false_of_ne hk] at h
        simp only [List.all_cons, Bool.and_eq_true]
        refine ⟨?_, ih h⟩
        simp only [Bool.not_eq_true']
        exact beq_false_of_ne (fun he => hk he.symm)

theorem all_ne_dictSet {rest : List (Str × Json)} {k k' : Str} (v : Json)
    (h1 : rest.all (fun p => !(p.1 == k')) = true) (hk : k' ≠ k) :
    (dictSet rest k v).all (fun p => !(p.1 == k')) = true := by
  induction rest with
  | nil =>
      simp only [dictSet, List.all_cons, List.all_nil, Bool.and_true, Bool.not_eq_true']
      exact beq_false_of_ne (fun he => hk he.symm)
  | cons q rs ih =>
      obtain ⟨kq, vq⟩ := q
      simp only [List.all_cons, Bool.and_eq_true] at h1
      rw [dictSet]
      by_cases hq : kq = k
      · rw [if_pos hq]
        simp only [List.all_cons, Bool.and_eq_true]
        refine ⟨?_, h1.2⟩
        simp only [Bool.not_eq_true']
        exact beq_false_of_ne (fun he => hk he.symm)
      · rw [if_neg hq]
        simp only [List.all_cons, Bool.and_eq_true]
        exact ⟨h1.1, ih h1.2⟩

theorem noDupKeys_dictSet {r : List (Str × Json)} (k : Str) (v : Json)
    (h : noDupKeys r = true) : noDupKeys (dictSet r k v) = true := by
  induction r with
  | nil => simp [dictSet, noDupKeys]
  | cons p rest ih =>
      obtain ⟨k', v'⟩ := p
      simp only [noDupKeys, Bool.and_eq_true] at h
      rw [dictSet]
      by_cases hk : k' = k
      · subst hk
        simp only [noDupKeys, Bool.and_eq_true]
        exact h
      · rw [if_neg hk]
        simp only [noDupKeys, Bool.and_eq_true]
        exact ⟨all_ne_dictSet v h.1 hk, ih h.2⟩

theorem jsonFieldsWf_dictSet {r : List (Str × Json)} {k : Str} {v : Json}
    (hr : jsonFieldsWf r = true) (hv : Json.wf v = true) :
    jsonFieldsWf (dictSet r k v) = true := by
  induction r with
  | nil => simp [dictSet, jsonFieldsWf, hv]
  | cons p rest ih =>
      obtain ⟨k', v'⟩ := p
      rw [jsonFieldsWf, Bool.and_eq_true] at hr
      rw [dictSet]
      by_cases hk : k' = k
      · rw [if_pos hk, jsonFieldsWf, Bool.and_eq_true]
        exact ⟨hv, hr.2⟩
      · rw [if_neg hk, jsonFieldsWf, Bool.and_eq_true]
        exact ⟨hr.1, ih hr.2⟩

/-- Inserting pairwise-distinct keys into a dict just appends them. -/
theorem foldl_dictSet_nodup :
    ∀ (ps acc : List (Str × Json)), noDupKeys ps = true →
      (∀ kv ∈ ps, List.lookup kv.1 acc = none) →
      ps.foldl (fun d kv => dictSet d kv.1 kv.2) acc = acc ++ ps := by
  intro ps
  induction ps with
  | nil => intro acc _ _; simp
  | cons p rest ih =>
      intro acc hnd hfresh
      obtain ⟨k, v⟩ := p
      rw [noDupKeys, Bool.and_eq_true] at hnd
      simp only [List.foldl_cons]
      rw [dictSet_absent v (hfresh (k, v) (List.mem_cons_self ..))]
      rw [ih (acc ++ [(k, v)]) hnd.2 ?fresh]
      · simp
      case fresh =>
        intro kv hkv
        rw [List.lookup_append]
        rw [hfresh kv (List.mem_cons_of_mem _ hkv)]
        simp only [Option.none_or]
        rw [List.lookup]
        have : (kv.1 == k) = false := by
          rw [beq_eq_false_iff_ne]
          intro he
          have := hnd.1
          rw [List.all_eq_true] at this
          have h2 := this kv hkv
          rw [he] at h2
          simp at h2
        rw [this]
        rfl

theorem buildDict_self {ps : List (Str × Json)} (h : noDupKeys ps = true) :
    buildDict ps = ps := by
  rw [buildDict, foldl_dictSet_nodup ps [] h (fun _ _ => rfl)]
  rfl

/-! ## Lemmas about canonical numbers -/

theorem normNum_wf : ∀ (m : Int) (e : Nat), wfNum (normNum m e).1 (normNum m e).2 = true := by
  intro m e
  induction e generalizing m with
  | zero => simp [normNum, wfNum]
  | succ e ih =>
      rw [normNum]
      by_cases h : m % 10 = 0
      · rw [if_pos h]; exact ih (m / 10)
      · rw [if_neg h]
        simp [wfNum, h]

theorem normNum_canon {m : Int} {e : Nat} (h : wfNum m e = true) :
    normNum m e = (m, e) := by
  cases e with
  | zero => rfl
  | succ e =>
      rw [normNum]
      rw [if_neg ?hne]
      case hne =>
        rw [wfNum] at h
        rw [Bool.or_eq_true] at h
        rcases h with h1 | h1
        · rw [beq_iff_eq] at h1
          exact absurd h1 (by omega)
        · simp only [Bool.not_eq_true', beq_eq_false_iff_ne] at h1
          exact h1

/-! ## Lemmas about decimal digits -/

theorem digit_facts (r : Nat) (h : r < 10) :
    isDigitCh (Char.ofNat (48 + r)) = true ∧ (Char.ofNat (48 + r)).toNat = 48 + r := by
  interval_cases r <;> exact ⟨by decide, by decide⟩

theorem isDigitCh_digitCh (k : Nat) : isDigitCh (digitCh k) = true :=
  (digit_facts (k % 10) (Nat.mod_lt _ (by omega))).1

theorem toNat_digitCh (k : Nat) : (digitCh k).toNat = 48 + k % 10 :=
  (digit_facts (k % 10) (Nat.mod_lt _ (by omega))).2

theorem digitCh_eq_zero_iff (k : Nat) : digitCh k = '0' ↔ k % 10 = 0 := by
  constructor
  · intro h
    have h2 := congrArg Char.toNat h
    rw [toNat_digitCh] at h2
    have h3 : ('0' : Char).toNat = 48 := by decide
    omega
  · intro h
    show Char.ofNat (48 + k % 10) = '0'
    rw [h]

theorem natDigitsAux_append (n : Nat) : ∀ acc : Str,
    natDigitsAux n acc = natDigits n ++ acc := by
  induction n using Nat.strongRecOn with
  | _ n ih =>
    intro acc
    by_cases h : n < 10
    · conv_lhs => rw [natDigitsAux.eq_def]
      conv_rhs => rw [natDigits, natDigitsAux.eq_def]
      simp [h]
    · conv_lhs => rw [natDigitsAux.eq_def]
      conv_rhs => rw [natDigits, natDigitsAux.eq_def]
      simp only [dif_neg h]
      rw [ih (n / 10) (by omega) (digitCh n :: acc), ih (n / 10) (by omega) [digitCh n]]
      simp

theorem natDigits_unfold (n : Nat) :
    natDigits n = (if n < 10 then [] else natDigits (n / 10)) ++ [digitCh n] := by
  conv_lhs => rw [natDigits, natDigitsAux.eq_def]
  by_cases h : n < 10
  · simp [h]
  · simp only [dif_neg h, if_neg h]
    exact natDigitsAux_append (n / 10) [digitCh n]

theorem natDigits_ne_nil (n : Nat) : natDigits n ≠ [] := by
  rw [natDigits_unfold]
  simp

theorem natDigits_all_digits (n : Nat) : ∀ c ∈ natDigits n, isDigitCh c = true := by
  induction n using Nat.strongRecOn with
  | _ n ih =>
    intro c hc
    rw [natDigits_unfold] at hc
    rw [List.mem_append] at hc
    rcases hc with hc | hc
    · by_cases h : n < 10
      · rw [if_pos h] at hc; cases hc
      · rw [if_neg h] at hc
        exact ih (n / 10) (by omega) c hc
    · rw [List.mem_singleton] at hc
      subst hc
      exact isDigitCh_digitCh n

theorem digitsToNat_natDigits (n : Nat) : digitsToNat (natDigits n) = n := by
  induction n using Nat.strongRecOn with
  | _ n ih =>
    rw [digitsToNat, natDigits_unfold, List.foldl_append]
    by_cases h : n < 10
    · simp only [if_pos h, List.foldl_nil, List.foldl_cons]
      rw [toNat_digitCh]
      omega
    · simp only [if_neg h, List.foldl_cons, List.foldl_nil]
      rw [← digitsToNat, ih (n / 10) (by omega), toNat_digitCh]
      omega

theorem natDigits_cons (n : Nat) :
    ∃ c t, natDigits n = c :: t ∧ isDigitCh c = true ∧ (n ≠ 0 → c ≠ '0') := by
  induction n using Nat.strongRecOn with
  | _ n ih =>
    by_cases h : n < 10
    · refine ⟨digitCh n, [], ?_, isDigitCh_digitCh n, ?_⟩
      · rw [natDigits_unfold, if_pos h]; rfl
      · intro hn h0
        rw [digitCh_eq_zero_iff] at h0
        omega
    · obtain ⟨c, t, hct, hd, hz⟩ := ih (n / 10) (by omega)
      refine ⟨c, t ++ [digitCh n], ?_, hd, fun _ => hz (by omega)⟩
      rw [natDigits_unfold, if_neg h, hct]
      rfl

theorem digitsToNat_zeros (k : Nat) (ds : Str) :
    digitsToNat (List.replicate k '0' ++ ds) = digitsToNat ds := by
  induction k with
  | zero => rfl
  | succ k ih =>
      rw [List.replicate_succ]
      rw [digitsToNat, List.cons_append, List.foldl_cons]
      have h0 : (0 : Nat) * 10 + (('0' : Char).toNat - 48) = 0 := by decide
      rw [h0, ← digitsToNat, ih]

/-! ## Lemmas about digit-run scanning -/

/-- The remainder cannot begin with a digit. -/
def notDigitStart : Str → Bool
  | [] => true
  | c :: _ => !(isDigitCh c)

/-- A remainder that cannot extend a number lexeme at all: no digit, no
decimal point, no exponent marker.  Every JSON delimiter qualifies. -/
def numDelim : Str → Bool
  | [] => true
  | c :: _ => !(isDigitCh c || c == '.' || c == 'e' || c == 'E')

theorem numDelim_notDigitStart {cs : Str} (h : numDelim cs = true) :
    notDigitStart cs = true := by
  cases cs with
  | nil => rfl
  | cons c t =>
      simp only [numDelim, Bool.not_eq_true', Bool.or_eq_false_iff] at h
      simp only [notDigitStart, Bool.not_eq_true']
      exact h.1.1.1

theorem numDelim_head {c : Char} {t : Str} (h : numDelim (c :: t) = true) :
    isDigitCh c = false ∧ c ≠ '.' ∧ c ≠ 'e' ∧ c ≠ 'E' := by
  simp only [numDelim, Bool.not_eq_true', Bool.or_eq_false_iff,
    beq_eq_false_iff_ne] at h
  obtain ⟨⟨⟨hd, hdot⟩, he⟩, hE⟩ := h
  exact ⟨hd, hdot, he, hE⟩

theorem takeWhile_digits {ds rest : Str} (hds : ∀ c ∈ ds, isDigitCh c = true)
    (hr : notDigitStart rest = true) : (ds ++ rest).takeWhile isDigitCh = ds := by
  induction ds with
  | nil =>
      cases rest with
      | nil => rfl
      | cons c t =>
          simp only [notDigitStart, Bool.not_eq_true'] at hr
          simp [List.takeWhile_cons, hr]
  | cons d ds ih =>
      rw [List.cons_append, List.takeWhile_cons, hds d (List.mem_cons_self d ds)]
      simp only [if_true]
      rw [ih (fun c hc => hds c (List.mem_cons_of_mem _ hc))]

theorem dropWhile_digits {ds rest : Str} (hds : ∀ c ∈ ds, isDigitCh c = true)
    (hr : notDigitStart rest = true) : (ds ++ rest).dropWhile isDigitCh = rest := by
  induction ds with
  | nil =>
      cases rest with
      | nil => rfl
      | cons c t =>
          simp only [notDigitStart, Bool.not_eq_true'] at hr
          simp [List.dropWhile_cons, hr]
  | cons d ds ih =>
      rw [List.cons_append, List.dropWhile_cons, hds d (List.mem_cons_self d ds)]
      simp only [if_true]
      exact ih (fun c hc => hds c (List.mem_cons_of_mem _ hc))

theorem takeDigits_split {ds rest : Str} (hds : ∀ c ∈ ds, isDigitCh c = true)
    (hr : notDigitStart rest = true) : takeDigits (ds ++ rest) = (ds, rest) := by
  rw [takeDigits, takeWhile_digits hds hr, dropWhile_digits hds hr]

/-! ## The number codec round trip -/

theorem digit_not_ws {c : Char} (h : isDigitCh c = true) : isJsonWs c = false := by
  cases hw : isJsonWs c
  · rfl
  · exfalso
    simp only [isJsonWs, Bool.or_eq_true, beq_iff_eq] at hw
    rcases hw with ((rfl | rfl) | rfl) | rfl <;> exact absurd h (by decide)

theorem digit_not_minus {c : Char} (h : isDigitCh c = true) : c ≠ '-' :=
  fun hrfl => absurd h (by rw [hrfl]; decide)

theorem notDigitStart_dot (xs : Str) : notDigitStart ('.' :: xs) = true := by
  rw [notDigitStart]
  decide

theorem parseIntDigits_zero (rest : Str) :
    parseIntDigits ('0' :: rest) = some (['0'], rest) := by
  rw [parseIntDigits, if_pos rfl]

theorem parseIntDigits_run {d : Char} {ds rest : Str} (hd0 : d ≠ '0')
    (hds : ∀ c ∈ d :: ds, isDigitCh c = true) (hr : notDigitStart rest = true) :
    parseIntDigits ((d :: ds) ++ rest) = some (d :: ds, rest) := by
  rw [List.cons_append, parseIntDigits, if_neg hd0, ← List.cons_append,
    takeDigits_split hds hr]

theorem parseFracPart_delim {rest : Str} (h : numDelim rest = true) :
    parseFracPart rest = ([], rest) := by
  cases rest with
  | nil => rfl
  | cons c t =>
      obtain ⟨-, hdot, -, -⟩ := numDelim_head h
      rw [parseFracPart, if_neg hdot]

theorem parseFracPart_frac {d : Char} {ds rest : Str}
    (hds : ∀ c ∈ d :: ds, isDigitCh c = true) (hr : notDigitStart rest = true) :
    parseFracPart ('.' :: ((d :: ds) ++ rest)) = (d :: ds, rest) := by
  rw [parseFracPart, if_pos rfl, takeDigits_split hds hr]

theorem parseExpPart_delim {rest : Str} (h : numDelim rest = true) :
    parseExpPart rest = (0, rest) := by
  cases rest with
  | nil => rfl
  | cons c t =>
      obtain ⟨-, -, he, hE⟩ := numDelim_head h
      rw [parseExpPart, if_neg (by simp [he, hE])]

/-- `digitsToNat` ignores a leading zero. -/
theorem digitsToNat_cons_zero (ds : Str) : digitsToNat ('0' :: ds) = digitsToNat ds := by
  rw [digitsToNat, List.foldl_cons]
  have h0 : (0 : Nat) * 10 + (('0' : Char).toNat - 48) = 0 := by decide
  rw [h0, ← digitsToNat]

theorem applyExpo_int (scaled : Int) : applyExpo scaled 0 0 = (scaled, 0) := by
  rw [applyExpo]
  norm_num

theorem applyExpo_frac (scaled : Int) {e : Nat} (he : 0 < e) :
    applyExpo scaled e 0 = normNum scaled e := by
  rw [applyExpo]
  rw [if_neg (by omega)]
  congr 1
  omega

/-- Parsing a bare digit run denotes its value (scale zero). -/
theorem parseNumTail_int (neg : Bool) (n : Nat) {rest : Str}
    (hr : numDelim rest = true) :
    parseNumTail neg (natDigits n ++ rest)
      = some (((if neg then -(n : Int) else (n : Int)), 0), rest) := by
  have hnds : notDigitStart rest = true := numDelim_notDigitStart hr
  obtain ⟨d, t, hdt, hdig, hz⟩ := natDigits_cons n
  by_cases hn : n = 0
  · subst hn
    have h1 : natDigits 0 = ['0'] := by rw [natDigits_unfold]; rfl
    rw [h1]
    rw [show (['0'] : Str) ++ rest = '0' :: rest by rfl]
    rw [parseNumTail, parseIntDigits_zero]
    simp only [parseFracPart_delim hr, parseExpPart_delim hr]
    have hd0 : digitsToNat (['0'] ++ []) = 0 := by decide
    rw [hd0]
    simp [applyExpo_int]
  · rw [hdt]
    rw [parseNumTail, parseIntDigits_run (hz hn) (hdt ▸ natDigits_all_digits n) hnds]
    simp only [parseFracPart_delim hr, parseExpPart_delim hr]
    rw [List.append_nil, ← hdt, digitsToNat_natDigits]
    simp only [List.length_nil, applyExpo_int]
    cases neg <;> simp

/-- The decimal digits-with-point rendering of `n / 10 ^ e` (unsigned). -/
def decBody (n e : Nat) : Str :=
  let ds := natDigits n
  let padded := List.replicate (e + 1 - ds.length) '0' ++ ds
  padded.take (padded.length - e) ++ '.' :: padded.drop (padded.length - e)

/-- Parsing a decimal with a point denotes its value at scale `e`,
normalized. -/
theorem parseNumTail_dec (neg : Bool) (n : Nat) {e : Nat} {rest : Str}
    (he : 0 < e) (hr : numDelim rest = true) :
    parseNumTail neg (decBody n e ++ rest)
      = some (normNum ((if neg then -1 else 1) * (n : Int)) e, rest) := by
  have hnds : notDigitStart rest = true := numDelim_notDigitStart hr
  obtain ⟨d, t, hdt, hdig, hz⟩ := natDigits_cons n
  have hlen : (natDigits n).length = t.length + 1 := by rw [hdt]; rfl
  by_cases hcase : (natDigits n).length ≤ e
  · -- more scale than digits: zero-pad, integer part is a single `0`
    have hpadlen : (e + 1 - (natDigits n).length) = (e - (natDigits n).length) + 1 := by
      omega
    have hpad : List.replicate (e + 1 - (natDigits n).length) '0' ++ natDigits n
        = '0' :: (List.replicate (e - (natDigits n).length) '0' ++ natDigits n) := by
      rw [hpadlen, List.replicate_succ, List.cons_append]
    have hfraclen : (List.replicate (e - (natDigits n).length) '0' ++ natDigits n).length
        = e := by
      simp only [List.length_append, List.length_replicate]
      omega
    have hbody : decBody n e = '0' :: '.' ::
        (List.replicate (e - (natDigits n).length) '0' ++ natDigits n) := by
      rw [decBody]
      simp only [hpad]
      have hl : ('0' :: (List.replicate (e - (natDigits n).length) '0'
          ++ natDigits n)).length = e + 1 := by
        simp only [List.length_cons, hfraclen]
      rw [hl]
      have : e + 1 - e = 1 := by omega
      rw [this, List.take_succ_cons, List.take_zero, List.drop_succ_cons, List.drop_zero]
      rfl
    rw [hbody]
    -- the fraction is a nonempty digit run
    have hfrac_cons : ∃ f ft, List.replicate (e - (natDigits n).length) '0' ++ natDigits n
        = f :: ft := by
      cases hc : List.replicate (e - (natDigits n).length) '0' ++ natDigits n with
      | nil =>
          exfalso
          have := congrArg List.length hc
          simp only [hfraclen] at this
          simp at this
          omega
      | cons f ft => exact ⟨f, ft, rfl⟩
    obtain ⟨f, ft, hf⟩ := hfrac_cons
    have hfd : ∀ c ∈ f :: ft, isDigitCh c = true := by
      rw [← hf]
      intro c hc
      rw [List.mem_append] at hc
      rcases hc with hc | hc
      · rw [List.eq_of_mem_replicate hc]; decide
      · exact natDigits_all_digits n c hc
    rw [show ('0' :: '.' :: (List.replicate (e - (natDigits n).length) '0'
        ++ natDigits n)) ++ rest
        = '0' :: ('.' :: (((f :: ft) ++ rest))) by rw [← hf]; simp]
    rw [parseNumTail, parseIntDigits_zero]
    simp only [parseFracPart_frac hfd hnds, parseExpPart_delim hr]
    have hval : digitsToNat (['0'] ++ f :: ft) = n := by
      rw [show (['0'] : Str) ++ f :: ft = '0' :: (f :: ft) by rfl]
      rw [digitsToNat_cons_zero, ← hf, digitsToNat_zeros, digitsToNat_natDigits]
    rw [hval]
    have hflen : (f :: ft).length = e := by rw [← hf]; exact hfraclen
    rw [hflen]
    rw [applyExpo_frac _ he]
  · -- at least `e + 1` digits: no padding, split the digit run at the point
    have hpadnil : (e + 1 - (natDigits n).length) = 0 := by omega
    have hbody : decBody n e = (natDigits n).take ((natDigits n).length - e)
        ++ '.' :: (natDigits n).drop ((natDigits n).length - e) := by
      rw [decBody]
      simp only [hpadnil, List.replicate_zero, List.nil_append]
    have hk : (natDigits n).length - e = ((natDigits n).length - e - 1) + 1 := by omega
    have htake : (natDigits n).take ((natDigits n).length - e)
        = d :: t.take ((natDigits n).length - e - 1) := by
      rw [hk, hdt, List.take_succ_cons]
      simp only [Nat.add_sub_cancel]
    have hdropfrac : ∃ f ft, (natDigits n).drop ((natDigits n).length - e) = f :: ft := by
      have hld : ((natDigits n).drop ((natDigits n).length - e)).length = e := by
        rw [List.length_drop]
        omega
      cases hc : (natDigits n).drop ((natDigits n).length - e) with
      | nil =>
          exfalso
          rw [hc] at hld
          simp at hld
          omega
      | cons f ft => exact ⟨f, ft, rfl⟩
    obtain ⟨f, ft, hf⟩ := hdropfrac
    have hfd : ∀ c ∈ f :: ft, isDigitCh c = true := by
      rw [← hf]
      intro c hc
      exact natDigits_all_digits n c (List.drop_subset _ _ hc)
    have htd : ∀ c ∈ d :: t.take ((natDigits n).length - e - 1), isDigitCh c = true := by
      rw [← htake]
      intro c hc
      exact natDigits_all_digits n c (List.take_subset _ _ hc)
    have hn0 : n ≠ 0 := by
      intro hn
      subst hn
      have : (natDigits 0).length = 1 := by rw [natDigits_unfold]; rfl
      omega
    rw [hbody, htake]
    rw [show (d :: t.take ((natDigits n).length - e - 1)
        ++ '.' :: (natDigits n).drop ((natDigits n).length - e)) ++ rest
        = (d :: t.take ((natDigits n).length - e - 1))
          ++ ('.' :: (((natDigits n).drop ((natDigits n).length - e)) ++ rest)) by simp]
    rw [parseNumTail, parseIntDigits_run (hz hn0) htd (by rw [notDigitStart]; decide)]
    rw [hf]
    simp only [parseFracPart_frac hfd hnds, parseExpPart_delim hr]
    have hval : digitsToNat (d :: t.take ((natDigits n).length - e - 1) ++ f :: ft) = n := by
      rw [← htake, ← hf, List.take_append_drop, digitsToNat_natDigits]
    rw [hval]
    have hflen : (f :: ft).length = e := by
      rw [← hf, List.length_drop]
      omega
    rw [hflen]
    rw [applyExpo_frac _ he]

/-- The decimal body begins with a digit. -/
theorem decBody_head (n : Nat) {e : Nat} (he : 0 < e) :
    ∃ c cs, decBody n e = c :: cs ∧ isDigitCh c = true := by
  rw [decBody]
  have h1 : 1 ≤ (natDigits n).length := by
    cases hnn : natDigits n with
    | nil => exact absurd hnn (natDigits_ne_nil n)
    | cons a b => simp
  have hlen : e + 1 ≤ (List.replicate (e + 1 - (natDigits n).length) '0'
      ++ natDigits n).length := by
    simp only [List.length_append, List.length_replicate]
    omega
  have hdigits : ∀ c ∈ List.replicate (e + 1 - (natDigits n).length) '0'
      ++ natDigits n, isDigitCh c = true := by
    intro c hc
    rw [List.mem_append] at hc
    rcases hc with hc | hc
    · rw [List.eq_of_mem_replicate hc]; decide
    · exact natDigits_all_digits _ c hc
  cases htk : (List.replicate (e + 1 - (natDigits n).length) '0'
      ++ natDigits n).take ((List.replicate (e + 1 - (natDigits n).length) '0'
      ++ natDigits n).length - e) with
  | nil =>
      exfalso
      have hlt := congrArg List.length htk
      rw [List.length_take] at hlt
      simp only [List.length_nil] at hlt
      omega
  | cons c cs =>
      refine ⟨c, cs ++ '.' :: (List.replicate (e + 1 - (natDigits n).length) '0'
        ++ natDigits n).drop ((List.replicate (e + 1 - (natDigits n).length) '0'
        ++ natDigits n).length - e), ?_, ?_⟩
      · simp [htk]
      · exact hdigits c (List.take_subset _ _ (htk ▸ List.mem_cons_self c cs))

/-- The full number codec round trip: `parseNum` inverts `renderNum` on
canonical decimals, for any remainder that cannot extend the lexeme. -/
theorem parseNum_renderNum {m : Int} {e : Nat} {rest : Str}
    (hwf : wfNum m e = true) (hr : numDelim rest = true) :
    parseNum (renderNum m e ++ rest) = some ((m, e), rest) := by
  by_cases he : e = 0
  · subst he
    have hbody : renderNum m 0 = intChars m := by rw [renderNum, if_pos rfl]
    rw [hbody, intChars]
    by_cases hm : m < 0
    · rw [if_pos hm]
      rw [show (['-'] ++ natDigits m.natAbs) ++ rest
          = '-' :: (natDigits m.natAbs ++ rest) by simp]
      rw [parseNum, if_pos rfl, parseNumTail_int true m.natAbs hr]
      have h2 : (if (true = true) then -((m.natAbs : Int)) else ((m.natAbs : Int))) = m := by
        rw [if_pos rfl]
        omega
      rw [h2]
    · rw [if_neg hm, List.nil_append]
      obtain ⟨d, t, hdt, hdig, -⟩ := natDigits_cons m.natAbs
      rw [hdt]
      rw [show (d :: t) ++ rest = d :: (t ++ rest) by rfl]
      rw [parseNum, if_neg (digit_not_minus hdig)]
      rw [show d :: (t ++ rest) = (d :: t) ++ rest by rfl, ← hdt,
        parseNumTail_int false m.natAbs hr]
      have h2 : (if (false = true) then -((m.natAbs : Int)) else ((m.natAbs : Int))) = m := by
        rw [if_neg (by decide)]
        omega
      rw [h2]
  · have he' : 0 < e := by omega
    have hbody : renderNum m e
        = (if m < 0 then ['-'] else []) ++ decBody m.natAbs e := by
      rw [renderNum, if_neg he, decBody]
    rw [hbody]
    by_cases hm : m < 0
    · rw [if_pos hm]
      rw [show (['-'] ++ decBody m.natAbs e) ++ rest
          = '-' :: (decBody m.natAbs e ++ rest) by simp]
      rw [parseNum, if_pos rfl, parseNumTail_dec true m.natAbs he' hr]
      have h2 : ((if (true = true) then (-1 : Int) else 1) * (m.natAbs : Int)) = m := by
        rw [if_pos rfl]
        omega
      rw [h2, normNum_canon hwf]
    · rw [if_neg hm, List.nil_append]
      obtain ⟨c, cs, hccs, hcd⟩ := decBody_head m.natAbs he'
      rw [hccs]
      rw [show (c :: cs) ++ rest = c :: (cs ++ rest) by rfl]
      rw [parseNum, if_neg (digit_not_minus hcd)]
      rw [show c :: (cs ++ rest) = (c :: cs) ++ rest by rfl, ← hccs,
        parseNumTail_dec false m.natAbs he' hr]
      have h2 : ((if (false = true) then (-1 : Int) else 1) * (m.natAbs : Int)) = m := by
        rw [if_neg (by decide)]
        omega
      rw [h2, normNum_canon hwf]

/-! ## The string codec round trip -/

theorem hexVal_toHexLower {d : Nat} (h : d < 16) : hexVal? (toHexLower d) = some d := by
  interval_cases d <;> decide

/-- One-step unfolding of `scanStr` on a nonempty input. -/
theorem scanStr_cons (acc : Str) (c : Char) (rest : Str) :
    scanStr acc (c :: rest) =
      if c = '"' then .ok (acc.reverse, rest)
      else if c = '\\' then
        match rest with
        | 'u' :: a :: b :: x :: d :: r =>
            match hexVal? a, hexVal? b, hexVal? x, hexVal? d with
            | some va, some vb, some vx, some vd =>
                scanStr (Char.ofNat (((va * 16 + vb) * 16 + vx) * 16 + vd) :: acc) r
            | _, _, _, _ => .error "Invalid \\uXXXX escape"
        | e :: r =>
            match unescape? e with
            | some ch => scanStr (ch :: acc) r
            | none => .error "Invalid \\escape"
        | [] => .error "Unterminated string"
      else if c.toNat < 0x20 then .error "Invalid control character"
      else scanStr (c :: acc) rest := by
  rw [scanStr.eq_def]
  rfl

/-- Scanning one escaped character undoes the escape. -/
theorem scanStr_escChar (c : Char) (acc rest : Str) :
    scanStr acc (escChar c ++ rest) = scanStr (c :: acc) rest := by
  by_cases h1 : c = '"'
  · subst h1; rfl
  · by_cases h2 : c = '\\'
    · subst h2; rfl
    · by_cases h3 : c = '\n'
      · subst h3; rfl
      · by_cases h4 : c = '\r'
        · subst h4; rfl
        · by_cases h5 : c = '\t'
          · subst h5; rfl
          · by_cases h6 : c = '\x08'
            · subst h6; rfl
            · by_cases h7 : c = '\x0c'
              · subst h7; rfl
              · have hne : ∀ x : Char, c ≠ x → (c == x) = false :=
                  fun x hx => beq_eq_false_iff_ne.mpr hx
                by_cases h8 : c.toNat < 0x20
                · have hesc : escChar c = ['\\', 'u', '0', '0',
                      toHexLower (c.toNat / 16), toHexLower (c.toNat % 16)] := by
                    rw [escChar, if_neg (by simp [hne _ h1]), if_neg (by simp [hne _ h2]),
                      if_neg (by simp [hne _ h3]), if_neg (by simp [hne _ h4]),
                      if_neg (by simp [hne _ h5]), if_neg (by simp [hne _ h6]),
                      if_neg (by simp [hne _ h7]), if_pos h8]
                  rw [hesc]
                  have hhi : c.toNat / 16 < 16 := by omega
                  have hlo : c.toNat % 16 < 16 := by omega
                  have h0 : hexVal? '0' = some 0 := by decide
                  show (match hexVal? '0', hexVal? '0', hexVal? (toHexLower (c.toNat / 16)),
                      hexVal? (toHexLower (c.toNat % 16)) with
                    | some va, some vb, some vx, some vd =>
                        scanStr (Char.ofNat (((va * 16 + vb) * 16 + vx) * 16 + vd) :: acc) rest
                    | _, _, _, _ => Except.error "Invalid \\uXXXX escape")
                    = scanStr (c :: acc) rest
                  rw [h0, hexVal_toHexLower hhi, hexVal_toHexLower hlo]
                  show scanStr (Char.ofNat (((0 * 16 + 0) * 16 + c.toNat / 16) * 16
                      + c.toNat % 16) :: acc) rest = scanStr (c :: acc) rest
                  have harith : ((0 * 16 + 0) * 16 + c.toNat / 16) * 16
                      + c.toNat % 16 = c.toNat := by omega
                  rw [harith, Char.ofNat_toNat]
                · have hesc : escChar c = [c] := by
                    rw [escChar, if_neg (by simp [hne _ h1]), if_neg (by simp [hne _ h2]),
                      if_neg (by simp [hne _ h3]), if_neg (by simp [hne _ h4]),
                      if_neg (by simp [hne _ h5]), if_neg (by simp [hne _ h6]),
                      if_neg (by simp [hne _ h7]), if_neg h8]
                  rw [hesc, List.cons_append, List.nil_append, scanStr_cons,
                    if_neg h1, if_neg h2, if_neg h8]

/-- Scanning an escaped run stops exactly at the closing quote. -/
theorem scanStr_flat (s : Str) : ∀ acc rest : Str,
    scanStr acc ((s.map escChar).flatten ++ '"' :: rest)
      = .ok (acc.reverse ++ s, rest) := by
  induction s with
  | nil =>
      intro acc rest
      rw [List.map_nil, List.flatten_nil, List.nil_append, scanStr_cons, if_pos rfl]
      simp
  | cons c s ih =>
      intro acc rest
      rw [List.map_cons, List.flatten_cons, List.append_assoc, scanStr_escChar, ih]
      simp

/-! ## The full parser round trip -/

theorem digit_not_pyspace {c : Char} (h : isDigitCh c = true) : isPySpace c = false := by
  cases hw : isPySpace c
  · rfl
  · exfalso
    simp only [isPySpace, Bool.or_eq_true, beq_iff_eq] at hw
    rcases hw with ((((rfl | rfl) | rfl) | rfl) | rfl) | rfl <;> exact absurd h (by decide)

theorem num_head_props {c : Char} (h : c = '-' ∨ isDigitCh c = true) :
    isJsonWs c = false ∧ isPySpace c = false ∧ c ≠ ']' ∧ c ≠ '}'
      ∧ c ≠ 'n' ∧ c ≠ 't' ∧ c ≠ 'f' ∧ c ≠ '"' ∧ c ≠ '[' ∧ c ≠ '{'
      ∧ (c == '-' || isDigitCh c) = true := by
  rcases h with rfl | h
  · refine ⟨by decide, by decide, by decide, by decide, by decide, by decide,
      by decide, by decide, by decide, by decide, by decide⟩
  · refine ⟨digit_not_ws h, digit_not_pyspace h, ?_, ?_, ?_, ?_, ?_, ?_, ?_, ?_, ?_⟩
    · exact fun hrfl => absurd h (by rw [hrfl]; decide)
    · exact fun hrfl => absurd h (by rw [hrfl]; decide)
    · exact fun hrfl => absurd h (by rw [hrfl]; decide)
    · exact fun hrfl => absurd h (by rw [hrfl]; decide)
    · exact fun hrfl => absurd h (by rw [hrfl]; decide)
    · exact fun hrfl => absurd h (by rw [hrfl]; decide)
    · exact fun hrfl => absurd h (by rw [hrfl]; decide)
    · exact fun hrfl => absurd h (by rw [hrfl]; decide)
    · simp [h]

/-- `renderNum` begins with a minus sign or a digit. -/
theorem renderNum_head (m : Int) (e : Nat) :
    ∃ c t, renderNum m e = c :: t ∧ (c = '-' ∨ isDigitCh c = true) := by
  by_cases he : e = 0
  · subst he
    rw [renderNum, if_pos rfl, intChars]
    by_cases hm : m < 0
    · rw [if_pos hm]
      exact ⟨'-', natDigits m.natAbs, rfl, Or.inl rfl⟩
    · rw [if_neg hm, List.nil_append]
      obtain ⟨d, t, hdt, hd, -⟩ := natDigits_cons m.natAbs
      exact ⟨d, t, hdt, Or.inr hd⟩
  · have hbody : renderNum m e
        = (if m < 0 then ['-'] else []) ++ decBody m.natAbs e := by
      rw [renderNum, if_neg he, decBody]
    rw [hbody]
    by_cases hm : m < 0
    · rw [if_pos hm]
      exact ⟨'-', decBody m.natAbs e, rfl, Or.inl rfl⟩
    · rw [if_neg hm, List.nil_append]
      obtain ⟨c, cs, hccs, hc⟩ := @decBody_head m.natAbs e (by omega)
      exact ⟨c, cs, hccs, Or.inr hc⟩

/-- Every rendered value begins with a character that is not whitespace and
closes no bracket. -/
theorem dumps_head (j : Json) : ∃ c t, dumps j = c :: t
    ∧ isJsonWs c = false ∧ isPySpace c = false ∧ c ≠ ']' ∧ c ≠ '}' := by
  cases j with
  | null => exact ⟨'n', _, rfl, by decide, by decide, by decide, by decide⟩
  | jbool b =>
      cases b with
      | true => exact ⟨'t', _, rfl, by decide, by decide, by decide, by decide⟩
      | false => exact ⟨'f', _, rfl, by decide, by decide, by decide, by decide⟩
  | str s => exact ⟨'"', _, rfl, by decide, by decide, by decide, by decide⟩
  | arr xs => exact ⟨'[', _, rfl, by decide, by decide, by decide, by decide⟩
  | obj fs => exact ⟨'{', _, rfl, by decide, by decide, by decide, by decide⟩
  | num m e =>
      obtain ⟨c, t, hct, hc⟩ := renderNum_head m e
      obtain ⟨h1, h2, h3, h4, -⟩ := num_head_props hc
      exact ⟨c, t, by rw [dumps, hct], h1, h2, h3, h4⟩

theorem skipWs_cons_of {c : Char} (h : isJsonWs c = false) (x : Str) :
    skipWs (c :: x) = c :: x := by
  rw [skipWs, List.dropWhile_cons, h]
  simp

theorem skipWs_dumps (j : Json) (x : Str) : skipWs (dumps j ++ x) = dumps j ++ x := by
  obtain ⟨c, t, hct, hws, -, -, -⟩ := dumps_head j
  rw [hct, List.cons_append, skipWs_cons_of hws]

/-- One-step unfolding of `parseVal` at successor fuel. -/
theorem parseVal_succ (f : Nat) (cs : Str) :
    parseVal (f + 1) cs =
      match skipWs cs with
      | 'n' :: 'u' :: 'l' :: 'l' :: tl => .ok (.null, tl)
      | 't' :: 'r' :: 'u' :: 'e' :: r => .ok (.jbool true, r)
      | 'f' :: 'a' :: 'l' :: 's' :: 'e' :: r => .ok (.jbool false, r)
      | '"' :: r =>
          match scanStr [] r with
          | .ok (s, r') => .ok (.str s, r')
          | .error e => .error e
      | '[' :: r =>
          match skipWs r with
          | ']' :: r' => .ok (.arr [], r')
          | cs' =>
              match parseElems f cs' with
              | .ok (xs, r') => .ok (.arr xs, r')
              | .error e => .error e
      | '{' :: r =>
          match skipWs r with
          | '}' :: r' => .ok (.obj [], r')
          | cs' =>
              match parseMembers f cs' with
              | .ok (ps, r') => .ok (.obj (buildDict ps), r')
              | .error e => .error e
      | c :: r =>
          if c == '-' || isDigitCh c then
            match parseNum (c :: r) with
            | some (me, r') => .ok (.num me.1 me.2, r')
            | none => .error "Expecting value"
          else .error "Expecting value"
      | [] => .error "Expecting value" := by
  rw [parseVal.eq_def]

/-- One-step unfolding of `parseElems` at successor fuel. -/
theorem parseElems_succ (f : Nat) (cs : Str) :
    parseElems (f + 1) cs =
      match parseVal f cs with
      | .error e => .error e
      | .ok (v, r) =>
          match skipWs r with
          | ',' :: r' =>
              match parseElems f r' with
              | .ok (vs, vr) => .ok (v :: vs, vr)
              | .error e => .error e
          | ']' :: r' => .ok ([v], r')
          | _ => .error "Expecting comma delimiter" := by
  rw [parseElems.eq_def]

/-- One-step unfolding of `parseMembers` at successor fuel. -/
theorem parseMembers_succ (f : Nat) (cs : Str) :
    parseMembers (f + 1) cs =
      match skipWs cs with
      | '"' :: r =>
          match scanStr [] r with
          | .error e => .error e
          | .ok (k, r1) =>
              match skipWs r1 with
              | ':' :: r2 =>
                  match parseVal f r2 with
                  | .error e => .error e
                  | .ok (v, r3) =>
                      match skipWs r3 with
                      | ',' :: r4 =>
                          match parseMembers f r4 with
                          | .ok (ps, r5) => .ok ((k, v) :: ps, r5)
                          | .error e => .error e
                      | '}' :: r4 => .ok ([(k, v)], r4)
                      | _ => .error "Expecting comma delimiter"
              | _ => .error "Expecting colon delimiter"
      | _ => .error "Expecting property name" := by
  rw [parseMembers.eq_def]

theorem parseVal_skip_space (f : Nat) (cs : Str) :
    parseVal f (' ' :: cs) = parseVal f cs := by
  cases f with
  | zero => rfl
  | succ f =>
      rw [parseVal_succ, parseVal_succ]
      have h : skipWs (' ' :: cs) = skipWs cs := by
        rw [skipWs, skipWs, List.dropWhile_cons]
        simp [isJsonWs]
      rw [h]

theorem parseMembers_skip_space (f : Nat) (cs : Str) :
    parseMembers f (' ' :: cs) = parseMembers f cs := by
  cases f with
  | zero => rfl
  | succ f =>
      rw [parseMembers_succ, parseMembers_succ]
      have h : skipWs (' ' :: cs) = skipWs cs := by
        rw [skipWs, skipWs, List.dropWhile_cons]
        simp [isJsonWs]
      rw [h]

theorem parseElems_skip_space (f : Nat) (cs : Str) :
    parseElems f (' ' :: cs) = parseElems f cs := by
  cases f with
  | zero => rfl
  | succ f =>
      rw [parseElems_succ, parseElems_succ, parseVal_skip_space]

theorem numDelim_comma (x : Str) : numDelim (',' :: x) = true := by
  rw [numDelim]; decide

theorem numDelim_rbrack (x : Str) : numDelim (']' :: x) = true := by
  rw [numDelim]; decide

theorem numDelim_rbrace (x : Str) : numDelim ('}' :: x) = true := by
  rw [numDelim]; decide

/-- Scanning a rendered key recovers it. -/
theorem scanStr_key (s rest : Str) :
    scanStr [] ((s.map escChar).flatten ++ '"' :: rest) = .ok (s, rest) := by
  rw [scanStr_flat]
  rfl

/-- With a number-start head, `parseVal` defers to `parseNum`. -/
theorem parseVal_to_parseNum (f : Nat) {c : Char} {t : Str}
    (hws : isJsonWs c = false) (hn : c ≠ 'n') (ht : c ≠ 't') (hfa : c ≠ 'f')
    (hq : c ≠ '"') (hbk : c ≠ '[') (hbc : c ≠ '{')
    (hg : (c == '-' || isDigitCh c) = true) :
    parseVal (f + 1) (c :: t)
      = match parseNum (c :: t) with
        | some (me, r') => .ok (.num me.1 me.2, r')
        | none => .error "Expecting value" := by
  rw [parseVal_succ, skipWs_cons_of hws]
  simp [hn, ht, hfa, hq, hbk, hbc, hg]

/-- With a non-`]` element head, `parseVal` defers to `parseElems`. -/
theorem parseVal_to_parseElems (f : Nat) {c : Char} {t : Str}
    (hws : isJsonWs c = false) (hc : c ≠ ']') :
    parseVal (f + 1) ('[' :: (c :: t))
      = match parseElems f (c :: t) with
        | .ok (xs, r') => .ok (.arr xs, r')
        | .error e => .error e := by
  rw [parseVal_succ, skipWs_cons_of (by decide)]
  show (match skipWs (c :: t) with
    | ']' :: r' => Except.ok (Json.arr [], r')
    | cs' =>
        match parseElems f cs' with
        | .ok (xs, r') => .ok (.arr xs, r')
        | .error e => .error e) = _
  rw [skipWs_cons_of hws]
  simp [hc]

/-- With a non-`}` member head, `parseVal` defers to `parseMembers`. -/
theorem parseVal_to_parseMembers (f : Nat) {c : Char} {t : Str}
    (hws : isJsonWs c = false) (hc : c ≠ '}') :
    parseVal (f + 1) ('{' :: (c :: t))
      = match parseMembers f (c :: t) with
        | .ok (ps, r') => .ok (.obj (buildDict ps), r')
        | .error e => .error e := by
  rw [parseVal_succ, skipWs_cons_of (by decide)]
  show (match skipWs (c :: t) with
    | '}' :: r' => Except.ok (Json.obj [], r')
    | cs' =>
        match parseMembers f cs' with
        | .ok (ps, r') => .ok (.obj (buildDict ps), r')
        | .error e => .error e) = _
  rw [skipWs_cons_of hws]
  simp [hc]

mutual

theorem rt_val : ∀ (j : Json) (fuel : Nat) (rest : Str),
    Json.wf j = true → (dumps j).length < fuel → numDelim rest = true →
    parseVal fuel (dumps j ++ rest) = .ok (j, rest)
  | .null, fuel, rest, _, hf, _ => by
      cases fuel with
      | zero => simp [dumps] at hf
      | succ f => rfl
  | .jbool b, fuel, rest, _, hf, _ => by
      cases fuel with
      | zero => cases b <;> simp [dumps] at hf
      | succ f => cases b <;> rfl
  | .num m e, fuel, rest, hwf, hf, hr => by
      cases fuel with
      | zero => exact absurd hf (Nat.not_lt_zero _)
      | succ f =>
          obtain ⟨c, t, hct, hc⟩ := renderNum_head m e
          obtain ⟨h1, -, -, -, hn, ht, hfa, hq, hbk, hbc, hg⟩ := num_head_props hc
          have harg : dumps (.num m e) ++ rest = c :: (t ++ rest) := by
            rw [dumps, hct]
            rfl
          have hwfn : wfNum m e = true := hwf
          rw [harg, parseVal_to_parseNum f h1 hn ht hfa hq hbk hbc hg,
            show c :: (t ++ rest) = (c :: t) ++ rest from rfl, ← hct,
            show renderNum m e = dumps (.num m e) from rfl]
          rw [show dumps (.num m e) = renderNum m e from rfl,
            parseNum_renderNum hwfn hr]
  | .str s, fuel, rest, _, hf, _ => by
      cases fuel with
      | zero => exact absurd hf (Nat.not_lt_zero _)
      | succ f =>
          have harg : dumps (.str s) ++ rest
              = '"' :: ((s.map escChar).flatten ++ '"' :: rest) := by
            rw [dumps, dumpsStr]
            simp
          rw [harg, parseVal_succ, skipWs_cons_of (by decide)]
          show (match scanStr [] ((s.map escChar).flatten ++ '"' :: rest) with
            | .ok (s, r') => Except.ok (Json.str s, r')
            | .error e => .error e) = _
          rw [scanStr_key]
  | .arr [], fuel, rest, _, hf, _ => by
      cases fuel with
      | zero => simp [dumps, dumpsElems] at hf
      | succ f => rfl
  | .arr (x :: xs), fuel, rest, hwf, hf, hr => by
      cases fuel with
      | zero => exact absurd hf (Nat.not_lt_zero _)
      | succ f =>
          have hlwf : jsonListWf (x :: xs) = true := hwf
          obtain ⟨c, t, hct, hcws, -, hcbk, -⟩ := dumps_head x
          have helems : dumpsElems (x :: xs) ++ ']' :: rest
              = c :: (t ++ dumpsElemsTail xs ++ ']' :: rest) := by
            rw [dumpsElems, hct]
            simp
          have harg : dumps (.arr (x :: xs)) ++ rest
              = '[' :: (c :: (t ++ dumpsElemsTail xs ++ ']' :: rest)) := by
            rw [dumps, ← helems]
            simp
          have hfe : (dumpsElems (x :: xs)).length + 1 < f := by
            rw [dumps] at hf
            simp only [List.length_cons, List.length_append] at hf
            omega
          rw [harg, parseVal_to_parseElems f hcws hcbk, ← helems,
            rt_elems x xs f rest hlwf hfe]
  | .obj [], fuel, rest, _, hf, _ => by
      cases fuel with
      | zero => simp [dumps, dumpsFields] at hf
      | succ f => rfl
  | .obj ((k, v) :: fs), fuel, rest, hwf, hf, hr => by
      cases fuel with
      | zero => exact absurd hf (Nat.not_lt_zero _)
      | succ f =>
          have hsplit : (noDupKeys ((k, v) :: fs) && jsonFieldsWf ((k, v) :: fs)) = true := hwf
          rw [Bool.and_eq_true] at hsplit
          have hmembers : dumpsFields ((k, v) :: fs) ++ '}' :: rest
              = '"' :: ((k.map escChar).flatten
                  ++ '"' :: (':' :: ' ' :: (dumps v ++ dumpsFieldsTail fs ++ '}' :: rest))) := by
            rw [dumpsFields, dumpsStr]
            simp
          have harg : dumps (.obj ((k, v) :: fs)) ++ rest
              = '{' :: ('"' :: ((k.map escChar).flatten
                  ++ '"' :: (':' :: ' ' :: (dumps v ++ dumpsFieldsTail fs ++ '}' :: rest)))) := by
            rw [dumps, ← hmembers]
            simp
          have hfm : (dumpsFields ((k, v) :: fs)).length + 1 < f := by
            rw [dumps] at hf
            simp only [List.length_cons, List.length_append] at hf
            omega
          rw [harg, parseVal_to_parseMembers f (by decide) (by decide), ← hmembers,
            rt_members (k, v) fs f rest hsplit.2 hfm]
          show Except.ok (Json.obj (buildDict ((k, v) :: fs)), rest) = _
          rw [buildDict_self hsplit.1]

theorem rt_elems : ∀ (x : Json) (xs : List Json) (fuel : Nat) (rest : Str),
    jsonListWf (x :: xs) = true → (dumpsElems (x :: xs)).length + 1 < fuel →
    parseElems fuel (dumpsElems (x :: xs) ++ ']' :: rest) = .ok (x :: xs, rest)
  | x, [], fuel, rest, hwf, hf => by
      cases fuel with
      | zero => omega
      | succ f =>
          have hxwf : Json.wf x = true := by
            rw [jsonListWf, Bool.and_eq_true] at hwf
            exact hwf.1
          have hfe : (dumps x).length < f := by
            rw [dumpsElems, dumpsElemsTail] at hf
            simp only [List.length_append, List.length_nil] at hf
            omega
          have harg : dumpsElems (x :: []) ++ ']' :: rest = dumps x ++ ']' :: rest := by
            rw [dumpsElems, dumpsElemsTail]
            simp
          rw [harg, parseElems_succ,
            rt_val x f (']' :: rest) hxwf hfe (numDelim_rbrack rest)]
          show (match skipWs (']' :: rest) with
            | ',' :: r' =>
                match parseElems f r' with
                | .ok (vs, r'') => Except.ok (x :: vs, r'')
                | .error e => .error e
            | ']' :: r' => Except.ok ([x], r')
            | _ => Except.error "Expecting comma delimiter") = _
          rw [skipWs_cons_of (by decide)]
          rfl
  | x, y :: ys, fuel, rest, hwf, hf => by
      cases fuel with
      | zero => omega
      | succ f =>
          rw [jsonListWf, Bool.and_eq_true] at hwf
          have harg : dumpsElems (x :: y :: ys) ++ ']' :: rest
              = dumps x ++ (',' :: (' ' :: (dumpsElems (y :: ys) ++ ']' :: rest))) := by
            rw [dumpsElems, dumpsElemsTail, dumpsElems]
            simp
          have hlen : (dumpsElems (x :: y :: ys)).length
              = (dumps x).length + 2 + (dumpsElems (y :: ys)).length := by
            rw [dumpsElems, dumpsElemsTail, dumpsElems]
            simp
            omega
          have hfe : (dumps x).length < f := by omega
          have hfx : (dumpsElems (y :: ys)).length + 1 < f := by omega
          rw [harg, parseElems_succ,
            rt_val x f (',' :: (' ' :: (dumpsElems (y :: ys) ++ ']' :: rest)))
              hwf.1 hfe (numDelim_comma _)]
          show (match skipWs (',' :: (' ' :: (dumpsElems (y :: ys) ++ ']' :: rest))) with
            | ',' :: r' =>
                match parseElems f r' with
                | .ok (vs, r'') => Except.ok (x :: vs, r'')
                | .error e => .error e
            | ']' :: r' => Except.ok ([x], r')
            | _ => Except.error "Expecting comma delimiter") = _
          rw [skipWs_cons_of (by decide)]
          show (match parseElems f (' ' :: (dumpsElems (y :: ys) ++ ']' :: rest)) with
            | .ok (vs, r'') => Except.ok (x :: vs, r'')
            | .error e => .error e) = _
          rw [parseElems_skip_space, rt_elems y ys f rest hwf.2 hfx]

theorem rt_members : ∀ (kv : Str × Json) (fs : List (Str × Json)) (fuel : Nat) (rest : Str),
    jsonFieldsWf (kv :: fs) = true → (dumpsFields (kv :: fs)).length + 1 < fuel →
    parseMembers fuel (dumpsFields (kv :: fs) ++ '}' :: rest) = .ok (kv :: fs, rest)
  | (k, v), [], fuel, rest, hwf, hf => by
      cases fuel with
      | zero => omega
      | succ f =>
          have hvwf : Json.wf v = true := by
            rw [jsonFieldsWf, Bool.and_eq_true] at hwf
            exact hwf.1
          have hfe : (dumps v).length < f := by
            rw [dumpsFields, dumpsFieldsTail, dumpsStr] at hf
            simp only [List.length_append, List.length_cons, List.length_nil] at hf
            omega
          have harg : dumpsFields ((k, v) :: []) ++ '}' :: rest
              = '"' :: ((k.map escChar).flatten
                  ++ '"' :: (':' :: (' ' :: (dumps v ++ '}' :: rest)))) := by
            rw [dumpsFields, dumpsFieldsTail, dumpsStr]
            simp
          rw [harg, parseMembers_succ, skipWs_cons_of (by decide)]
          show (match scanStr [] ((k.map escChar).flatten
              ++ '"' :: (':' :: (' ' :: (dumps v ++ '}' :: rest)))) with
            | .error e => Except.error e
            | .ok (key, r1) =>
                match skipWs r1 with
                | ':' :: r2 =>
                    match parseVal f r2 with
                    | .error e => Except.error e
                    | .ok (w, r3) =>
                        match skipWs r3 with
                        | ',' :: r4 =>
                            match parseMembers f r4 with
                            | .ok (ps, r5) => Except.ok ((key, w) :: ps, r5)
                            | .error e => Except.error e
                        | '}' :: r4 => Except.ok ([(key, w)], r4)
                        | _ => Except.error "Expecting comma delimiter"
                | _ => Except.error "Expecting colon delimiter") = _
          rw [scanStr_key]
          show (match skipWs (':' :: (' ' :: (dumps v ++ '}' :: rest))) with
            | ':' :: r2 =>
                match parseVal f r2 with
                | .error e => Except.error e
                | .ok (w, r3) =>
                    match skipWs r3 with
                    | ',' :: r4 =>
                        match parseMembers f r4 with
                        | .ok (ps, r5) => Except.ok ((k, w) :: ps, r5)
                        | .error e => Except.error e
                    | '}' :: r4 => Except.ok ([(k, w)], r4)
                    | _ => Except.error "Expecting comma delimiter"
            | _ => Except.error "Expecting colon delimiter") = _
          rw [skipWs_cons_of (by decide)]
          show (match parseVal f (' ' :: (dumps v ++ '}' :: rest)) with
            | .error e => Except.error e
            | .ok (w, r3) =>
                match skipWs r3 with
                | ',' :: r4 =>
                    match parseMembers f r4 with
                    | .ok (ps, r5) => Except.ok ((k, w) :: ps, r5)
                    | .error e => Except.error e
                | '}' :: r4 => Except.ok ([(k, w)], r4)
                | _ => Except.error "Expecting comma delimiter") = _
          rw [parseVal_skip_space,
            rt_val v f ('}' :: rest) hvwf hfe (numDelim_rbrace rest)]
          show (match skipWs ('}' :: rest) with
            | ',' :: r4 =>
                match parseMembers f r4 with
                | .ok (ps, r5) => Except.ok ((k, v) :: ps, r5)
                | .error e => Except.error e
            | '}' :: r4 => Except.ok ([(k, v)], r4)
            | _ => Except.error "Expecting comma delimiter") = _
          rw [skipWs_cons_of (by decide)]
          rfl
  | (k, v), (k', v') :: fs, fuel, rest, hwf, hf => by
      cases fuel with
      | zero => omega
      | succ f =>
          rw [jsonFieldsWf, Bool.and_eq_true] at hwf
          have hlen : (dumpsFields ((k, v) :: (k', v') :: fs)).length
              = (dumpsStr k).length + 2 + (dumps v).length + 2
                + (dumpsFields ((k', v') :: fs)).length := by
            rw [dumpsFields, dumpsFieldsTail, dumpsFields]
            simp
            omega
          have hfe : (dumps v).length < f := by omega
          have hfx : (dumpsFields ((k', v') :: fs)).length + 1 < f := by omega
          have harg : dumpsFields ((k, v) :: (k', v') :: fs) ++ '}' :: rest
              = '"' :: ((k.map escChar).flatten
                  ++ '"' :: (':' :: (' ' :: (dumps v
                    ++ ',' :: (' ' :: (dumpsFields ((k', v') :: fs) ++ '}' :: rest)))))) := by
            rw [dumpsFields, dumpsFieldsTail, dumpsFields, dumpsStr]
            simp
          rw [harg, parseMembers_succ, skipWs_cons_of (by decide)]
          show (match scanStr [] ((k.map escChar).flatten
              ++ '"' :: (':' :: (' ' :: (dumps v
                ++ ',' :: (' ' :: (dumpsFields ((k', v') :: fs) ++ '}' :: rest)))))) with
            | .error e => Except.error e
            | .ok (key, r1) =>
                match skipWs r1 with
                | ':' :: r2 =>
                    match parseVal f r2 with
                    | .error e => Except.error e
                    | .ok (w, r3) =>
                        match skipWs r3 with
                        | ',' :: r4 =>
                            match parseMembers f r4 with
                            | .ok (ps, r5) => Except.ok ((key, w) :: ps, r5)
                            | .error e => Except.error e
                        | '}' :: r4 => Except.ok ([(key, w)], r4)
                        | _ => Except.error "Expecting comma delimiter"
                | _ => Except.error "Expecting colon delimiter") = _
          rw [scanStr_key]
          show (match skipWs (':' :: (' ' :: (dumps v
              ++ ',' :: (' ' :: (dumpsFields ((k', v') :: fs) ++ '}' :: rest))))) with
            | ':' :: r2 =>
                match parseVal f r2 with
                | .error e => Except.error e
                | .ok (w, r3) =>
                    match skipWs r3 with
                    | ',' :: r4 =>
                        match parseMembers f r4 with
                        | .ok (ps, r5) => Except.ok ((k, w) :: ps, r5)
                        | .error e => Except.error e
                    | '}' :: r4 => Except.ok ([(k, w)], r4)
                    | _ => Except.error "Expecting comma delimiter"
            | _ => Except.error "Expecting colon delimiter") = _
          rw [skipWs_cons_of (by decide)]
          show (match parseVal f (' ' :: (dumps v
              ++ ',' :: (' ' :: (dumpsFields ((k', v') :: fs) ++ '}' :: rest)))) with
            | .error e => Except.error e
            | .ok (w, r3) =>
                match skipWs r3 with
                | ',' :: r4 =>
                    match parseMembers f r4 with
                    | .ok (ps, r5) => Except.ok ((k, w) :: ps, r5)
                    | .error e => Except.error e
                | '}' :: r4 => Except.ok ([(k, w)], r4)
                | _ => Except.error "Expecting comma delimiter") = _
          rw [parseVal_skip_space,
            rt_val v f (',' :: (' ' :: (dumpsFields ((k', v') :: fs) ++ '}' :: rest)))
              hwf.1 hfe (numDelim_comma _)]
          show (match skipWs (',' :: (' ' :: (dumpsFields ((k', v') :: fs) ++ '}' :: rest))) with
            | ',' :: r4 =>
                match parseMembers f r4 with
                | .ok (ps, r5) => Except.ok ((k, v) :: ps, r5)
                | .error e => Except.error e
            | '}' :: r4 => Except.ok ([(k, v)], r4)
            | _ => Except.error "Expecting comma delimiter") = _
          rw [skipWs_cons_of (by decide)]
          show (match parseMembers f (' ' :: (dumpsFields ((k', v') :: fs) ++ '}' :: rest)) with
            | .ok (ps, r5) => Except.ok ((k, v) :: ps, r5)
            | .error e => Except.error e) = _
          rw [parseMembers_skip_space, rt_members (k', v') fs f rest hwf.2 hfx]

end

/-- Serializing a well-formed value and reparsing it is the identity. -/
theorem json_loads_dumps {j : Json} (h : Json.wf j = true) :
    json_loads (dumps j) = .ok j := by
  have h1 := rt_val j (2 * (dumps j).length + 2) [] h (by omega) rfl
  rw [List.append_nil] at h1
  rw [json_loads, h1]
  rfl

/-! ## Every parsed value is well-formed -/

theorem applyExpo_wf (scaled : Int) (fracLen : Nat) (expI : Int) :
    wfNum (applyExpo scaled fracLen expI).1 (applyExpo scaled fracLen expI).2 = true := by
  rw [applyExpo]
  by_cases h : (0 : Int) ≤ expI - (fracLen : Int)
  · rw [if_pos h]
    rfl
  · rw [if_neg h]
    exact normNum_wf _ _

theorem parseNumTail_wf {neg : Bool} {cs : Str} {me : Int × Nat} {r : Str}
    (h : parseNumTail neg cs = some (me, r)) : wfNum me.1 me.2 = true := by
  rw [parseNumTail] at h
  cases hpi : parseIntDigits cs with
  | none =>
      simp only [hpi] at h
      contradiction
  | some p =>
      obtain ⟨intDs, cs2⟩ := p
      simp only [hpi] at h
      cases hfp : parseFracPart cs2 with
      | mk fracDs cs3 =>
          simp only [hfp] at h
          cases hep : parseExpPart cs3 with
          | mk expI cs4 =>
              simp only [hep, Option.some.injEq, Prod.mk.injEq] at h
              obtain ⟨h1, -⟩ := h
              rw [← h1]
              exact applyExpo_wf _ _ _

theorem parseNum_wf {cs : Str} {me : Int × Nat} {r : Str}
    (h : parseNum cs = some (me, r)) : wfNum me.1 me.2 = true := by
  cases cs with
  | nil => cases h
  | cons c t =>
      rw [parseNum] at h
      by_cases hc : c = '-'
      · rw [if_pos hc] at h
        exact parseNumTail_wf h
      · rw [if_neg hc] at h
        exact parseNumTail_wf h

theorem noDupKeys_foldl (ps : List (Str × Json)) :
    ∀ acc, noDupKeys acc = true →
      noDupKeys (ps.foldl (fun d kv => dictSet d kv.1 kv.2) acc) = true := by
  induction ps with
  | nil => intro acc hacc; exact hacc
  | cons p rest ih =>
      intro acc hacc
      rw [List.foldl_cons]
      exact ih _ (noDupKeys_dictSet _ _ hacc)

theorem jsonFieldsWf_foldl (ps : List (Str × Json)) :
    ∀ acc, jsonFieldsWf acc = true → (∀ kv ∈ ps, Json.wf kv.2 = true) →
      jsonFieldsWf (ps.foldl (fun d kv => dictSet d kv.1 kv.2) acc) = true := by
  induction ps with
  | nil => intro acc hacc _; exact hacc
  | cons p rest ih =>
      intro acc hacc hps
      rw [List.foldl_cons]
      exact ih _ (jsonFieldsWf_dictSet hacc (hps p (List.mem_cons_self p rest)))
        (fun kv hkv => hps kv (List.mem_cons_of_mem _ hkv))

theorem buildDict_wf {ps : List (Str × Json)} (hps : ∀ kv ∈ ps, Json.wf kv.2 = true) :
    Json.wf (.obj (buildDict ps)) = true := by
  show (noDupKeys (buildDict ps) && jsonFieldsWf (buildDict ps)) = true
  rw [Bool.and_eq_true]
  exact ⟨noDupKeys_foldl ps [] rfl, jsonFieldsWf_foldl ps [] rfl hps⟩

mutual

theorem parseVal_wf : ∀ (fuel : Nat) (cs : Str) (j : Json) (r : Str),
    parseVal fuel cs = .ok (j, r) → Json.wf j = true
  | 0, cs, j, r, h => by rw [parseVal.eq_def] at h; simp at h
  | fuel + 1, cs, j, r, h => by
      rw [parseVal_succ] at h
      repeat' split at h
      all_goals first
        | contradiction
        | (simp only [Except.ok.injEq, Prod.mk.injEq] at h
           obtain ⟨h1, -⟩ := h
           subst h1
           first
             | rfl
             | (exact parseElems_wf _ _ _ _ (by assumption))
             | (exact buildDict_wf (parseMembers_wf _ _ _ _ (by assumption)))
             | (exact parseNum_wf (by assumption)))

theorem parseElems_wf : ∀ (fuel : Nat) (cs : Str) (xs : List Json) (r : Str),
    parseElems fuel cs = .ok (xs, r) → jsonListWf xs = true
  | 0, cs, xs, r, h => by rw [parseElems.eq_def] at h; simp at h
  | fuel + 1, cs, xs, r, h => by
      rw [parseElems_succ] at h
      repeat' split at h
      all_goals first
        | contradiction
        | (simp only [Except.ok.injEq, Prod.mk.injEq] at h
           obtain ⟨h1, -⟩ := h
           subst h1
           first
             | (rw [jsonListWf]
                simp only [Bool.and_eq_true]
                exact ⟨parseVal_wf _ _ _ _ (by assumption),
                  parseElems_wf _ _ _ _ (by assumption)⟩)
             | (rw [jsonListWf, jsonListWf]
                simp only [Bool.and_true]
                exact parseVal_wf _ _ _ _ (by assumption)))

theorem parseMembers_wf : ∀ (fuel : Nat) (cs : Str) (ps : List (Str × Json)) (r : Str),
    parseMembers fuel cs = .ok (ps, r) → ∀ kv ∈ ps, Json.wf kv.2 = true
  | 0, cs, ps, r, h => by rw [parseMembers.eq_def] at h; simp at h
  | fuel + 1, cs, ps, r, h => by
      rw [parseMembers_succ] at h
      repeat' split at h
      all_goals first
        | contradiction
        | (simp only [Except.ok.injEq, Prod.mk.injEq] at h
           obtain ⟨h1, -⟩ := h
           subst h1
           intro kv hkv
           first
             | (rcases List.mem_cons.mp hkv with hkv1 | hkv1
                · subst hkv1
                  exact parseVal_wf _ _ _ _ (by assumption)
                · exact parseMembers_wf _ _ _ _ (by assumption) kv hkv1)
             | (rw [List.mem_singleton] at hkv
                subst hkv
                exact parseVal_wf _ _ _ _ (by assumption)))

end

/-- Everything `json_loads` accepts is well-formed. -/
theorem json_loads_wf {line : Str} {j : Json} (h : json_loads line = .ok j) :
    Json.wf j = true := by
  rw [json_loads] at h
  cases hv : parseVal (2 * line.length + 2) line with
  | error e =>
      simp only [hv] at h
      contradiction
  | ok p =>
      obtain ⟨j', r⟩ := p
      simp only [hv] at h
      by_cases hr : skipWs r = []
      · rw [if_pos hr] at h
        cases h
        exact parseVal_wf _ _ _ _ hv
      · rw [if_neg hr] at h
        cases h

theorem pyStrip_nonblank {c : Char} {t : Str} (h : isPySpace c = false) :
    pyStrip (c :: t) ≠ [] := by
  have hl : lstripWith isPySpace (c :: t) = c :: t := by
    show List.dropWhile isPySpace (c :: t) = c :: t
    rw [List.dropWhile_cons, h]
    simp
  show rstripWith isPySpace (lstripWith isPySpace (c :: t)) ≠ []
  rw [hl]
  intro habs
  obtain ⟨u, hu, hall⟩ := rstripWith_append isPySpace (c :: t)
  rw [habs, List.nil_append] at hu
  have hc2 : isPySpace c = true := hall c (by rw [← hu]; exact List.mem_cons_self c t)
  rw [h] at hc2
  cases hc2

/-! ## Loading saved output -/

theorem pyStrip_dumps_ne_nil (j : Json) : pyStrip (dumps j) ≠ [] := by
  obtain ⟨c, t, hct, -, hps, -, -⟩ := dumps_head j
  rw [hct]
  exact pyStrip_nonblank hps

theorem load_jsonl_aux_save : ∀ (recs : List Json) (i : Nat),
    (∀ r ∈ recs, Json.wf r = true) →
    load_jsonl_aux i (save_jsonl recs) = .ok recs := by
  intro recs
  induction recs with
  | nil => intro i _; rfl
  | cons rec rest ih =>
      intro i hwf
      rw [save_jsonl, List.map_cons, load_jsonl_aux,
        if_neg (pyStrip_dumps_ne_nil rec),
        json_loads_dumps (hwf rec (List.mem_cons_self rec rest)),
        ← save_jsonl, ih (i + 1) (fun r hr => hwf r (List.mem_cons_of_mem _ hr))]

/-- Re-loading saved well-formed records recovers them exactly. -/
theorem load_jsonl_save (recs : List Json) (hwf : ∀ r ∈ recs, Json.wf r = true) :
    load_jsonl (save_jsonl recs) = .ok recs :=
  load_jsonl_aux_save recs 1 hwf

theorem load_jsonl_aux_wf : ∀ (lines : List Str) (i : Nat) (recs : List Json),
    load_jsonl_aux i lines = .ok recs → ∀ r ∈ recs, Json.wf r = true := by
  intro lines
  induction lines with
  | nil =>
      intro i recs h r hr
      rw [load_jsonl_aux] at h
      cases h
      cases hr
  | cons line rest ih =>
      intro i recs h r hr
      rw [load_jsonl_aux] at h
      by_cases hb : pyStrip line = []
      · rw [if_pos hb] at h
        exact ih _ _ h r hr
      · rw [if_neg hb] at h
        cases hl : json_loads line with
        | error e =>
            simp only [hl] at h
            contradiction
        | ok v =>
            simp only [hl] at h
            cases ht : load_jsonl_aux (i + 1) rest with
            | error e =>
                simp only [ht] at h
                contradiction
            | ok vs =>
                simp only [ht, Except.ok.injEq] at h
                subst h
                rcases List.mem_cons.mp hr with hr1 | hr1
                · subst hr1
                  exact json_loads_wf hl
                · exact ih _ _ ht r hr1

/-- Everything `load_jsonl` yields is well-formed. -/
theorem load_jsonl_wf {lines : List Str} {recs : List Json}
    (h : load_jsonl lines = .ok recs) : ∀ r ∈ recs, Json.wf r = true :=
  load_jsonl_aux_wf lines 1 recs h

/-! ## Per-record facts about the three normalizers -/

/-- The `useragent` value of a record, when it is a string. -/
def uaOf : Json → Option Str
  | .obj fields =>
      match List.lookup uaKey fields with
      | some (Json.str s) => some s
      | _ => none
  | _ => none

/-- The fields of a record other than `useragent`, in order. -/
def otherFields : Json → List (Str × Json)
  | .obj fields => fields.filter (fun p => !(p.1 == uaKey))
  | _ => []

theorem str_wf (s : Str) : Json.wf (.str s) = true := rfl

/-- `_clean_record` on a record with a string `useragent`. -/
theorem clean_record_str {fields : List (Str × Json)} {ua : Str}
    (h : List.lookup uaKey fields = some (.str ua)) :
    clean_record (.obj fields)
      = some (.obj (dictSet fields uaKey (.str (pyStrip ua))), pyStrip ua != ua) := by
  rw [clean_record, dictGetD, dictGet?, h]
  rfl

/-- `_clean_record` on a record without a `useragent` key: the key is added. -/
theorem clean_record_absent {fields : List (Str × Json)}
    (h : List.lookup uaKey fields = none) :
    clean_record (.obj fields) = some (.obj (fields ++ [(uaKey, .str [])]), false) := by
  rw [clean_record, dictGetD, dictGet?, h]
  show some (Json.obj (dictSet fields uaKey (.str (pyStrip []))), (pyStrip [] != [])) = _
  rw [show pyStrip [] = [] from rfl, dictSet_absent _ h]
  rfl

/-- `_clean_record` raises on a non-string `useragent` value. -/
theorem clean_record_nonstr {fields : List (Str × Json)} {v : Json}
    (h : List.lookup uaKey fields = some v) (hv : ∀ s, v ≠ .str s) :
    clean_record (.obj fields) = none := by
  rw [clean_record, dictGetD, dictGet?, h]
  cases v with
  | str s => exact absurd rfl (hv s)
  | null => rfl
  | jbool b => rfl
  | num m e => rfl
  | arr xs => rfl
  | obj fs => rfl

theorem clean_record_wf {p q : Json} {b : Bool} (hp : Json.wf p = true)
    (h : clean_record p = some (q, b)) : Json.wf q = true := by
  cases p with
  | obj fields =>
      have hsplit : (noDupKeys fields && jsonFieldsWf fields) = true := hp
      rw [Bool.and_eq_true] at hsplit
      rw [clean_record] at h
      cases hv : dictGetD fields uaKey (Json.str []) with
      | str ua =>
          rw [hv] at h
          simp only [Option.some.injEq, Prod.mk.injEq] at h
          obtain ⟨h1, -⟩ := h
          rw [← h1]
          show (noDupKeys (dictSet fields uaKey (.str (pyStrip ua)))
            && jsonFieldsWf (dictSet fields uaKey (.str (pyStrip ua)))) = true
          rw [Bool.and_eq_true]
          exact ⟨noDupKeys_dictSet _ _ hsplit.1, jsonFieldsWf_dictSet hsplit.2 rfl⟩
      | null => rw [hv] at h; contradiction
      | jbool b2 => rw [hv] at h; contradiction
      | num m e => rw [hv] at h; contradiction
      | arr xs => rw [hv] at h; contradiction
      | obj fs => rw [hv] at h; contradiction
  | null => cases h
  | jbool b2 => cases h
  | num m e => cases h
  | str s => cases h
  | arr xs => cases h

/-- A cleaned record cleans to itself, with nothing left to change. -/
theorem clean_record_idem {p q : Json} {b : Bool}
    (h : clean_record p = some (q, b)) : clean_record q = some (q, false) := by
  cases p with
  | obj fields =>
      rw [clean_record] at h
      cases hv : dictGetD fields uaKey (Json.str []) with
      | str ua =>
          rw [hv] at h
          simp only [Option.some.injEq, Prod.mk.injEq] at h
          obtain ⟨h1, -⟩ := h
          rw [← h1]
          rw [clean_record_str (dictSet_lookup fields uaKey (.str (pyStrip ua)))]
          rw [pyStrip_idem, dictSet_self (dictSet_lookup fields uaKey _)]
          simp
      | null => rw [hv] at h; contradiction
      | jbool b2 => rw [hv] at h; contradiction
      | num m e => rw [hv] at h; contradiction
      | arr xs => rw [hv] at h; contradiction
      | obj fs => rw [hv] at h; contradiction
  | null => cases h
  | jbool b2 => cases h
  | num m e => cases h
  | str s => cases h
  | arr xs => cases h

/-- The cleaned record's `useragent` has no surrounding whitespace, and
every other field is untouched. -/
theorem clean_record_out {p q : Json} {b : Bool}
    (h : clean_record p = some (q, b)) :
    (∃ s, uaOf q = some s ∧ pyEndswith ' ' s = false ∧ pyStartswith ' ' s = false)
      ∧ otherFields q = otherFields p := by
  cases p with
  | obj fields =>
      rw [clean_record] at h
      cases hv : dictGetD fields uaKey (Json.str []) with
      | str ua =>
          rw [hv] at h
          simp only [Option.some.injEq, Prod.mk.injEq] at h
          obtain ⟨h1, -⟩ := h
          rw [← h1]
          constructor
          · refine ⟨pyStrip ua, ?_, pyStrip_no_trailing ua, pyStrip_no_leading ua⟩
            rw [uaOf, dictSet_lookup]
          · rw [otherFields, otherFields, dictSet_filter_ne]
      | null => rw [hv] at h; contradiction
      | jbool b2 => rw [hv] at h; contradiction
      | num m e => rw [hv] at h; contradiction
      | arr xs => rw [hv] at h; contradiction
      | obj fs => rw [hv] at h; contradiction
  | null => cases h
  | jbool b2 => cases h
  | num m e => cases h
  | str s => cases h
  | arr xs => cases h

theorem bne_false_eq {a b : Str} (h : (a != b) = false) : a = b := by
  simpa using h

/-- The `fix_useragents` loop body on a record with a string `useragent`. -/
theorem fix_record_str {fields : List (Str × Json)} {ua : Str}
    (h : List.lookup uaKey fields = some (.str ua)) :
    fix_record (.obj fields)
      = some (if rstripSpaces ua != ua
          then (Json.obj (dictSet fields uaKey (.str (rstripSpaces ua))), true)
          else (Json.obj fields, false)) := by
  rw [fix_record, dictGet?, h]
  show (if (rstripSpaces ua != ua) = true
      then some (Json.obj (dictSet fields uaKey (Json.str (rstripSpaces ua))), true)
      else some (Json.obj fields, false)) = _
  by_cases hc : (rstripSpaces ua != ua) = true
  · rw [if_pos hc, if_pos hc]
  · rw [if_neg hc, if_neg hc]

/-- The loop body leaves a record with no string `useragent` untouched. -/
theorem fix_record_other {fields : List (Str × Json)}
    (h : ∀ ua, List.lookup uaKey fields ≠ some (.str ua)) :
    fix_record (.obj fields) = some (.obj fields, false) := by
  rw [fix_record, dictGet?]
  cases hv : List.lookup uaKey fields with
  | none => rfl
  | some v =>
      cases v with
      | str s => exact absurd hv (h s)
      | null => rfl
      | jbool b => rfl
      | num m e => rfl
      | arr xs => rfl
      | obj fs => rfl

theorem fix_record_wf {p q : Json} {b : Bool} (hp : Json.wf p = true)
    (h : fix_record p = some (q, b)) : Json.wf q = true := by
  cases p with
  | obj fields =>
      have hsplit : (noDupKeys fields && jsonFieldsWf fields) = true := hp
      rw [Bool.and_eq_true] at hsplit
      cases hv : List.lookup uaKey fields with
      | some v =>
          cases v with
          | str ua =>
              rw [fix_record_str hv] at h
              by_cases hc : (rstripSpaces ua != ua) = true
              · rw [if_pos hc] at h
                simp only [Option.some.injEq, Prod.mk.injEq] at h
                obtain ⟨h1, -⟩ := h
                rw [← h1]
                show (noDupKeys (dictSet fields uaKey (.str (rstripSpaces ua)))
                  && jsonFieldsWf (dictSet fields uaKey (.str (rstripSpaces ua)))) = true
                rw [Bool.and_eq_true]
                exact ⟨noDupKeys_dictSet _ _ hsplit.1, jsonFieldsWf_dictSet hsplit.2 rfl⟩
              · rw [if_neg hc] at h
                simp only [Option.some.injEq, Prod.mk.injEq] at h
                obtain ⟨h1, -⟩ := h
                rw [← h1]
                exact hp
          | null =>
              rw [fix_record_other (fun ua hua => by rw [hv] at hua; cases hua)] at h
              simp only [Option.some.injEq, Prod.mk.injEq] at h
              obtain ⟨h1, -⟩ := h
              rw [← h1]
              exact hp
          | jbool b2 =>
              rw [fix_record_other (fun ua hua => by rw [hv] at hua; cases hua)] at h
              simp only [Option.some.injEq, Prod.mk.injEq] at h
              obtain ⟨h1, -⟩ := h
              rw [← h1]
              exact hp
          | num m e =>
              rw [fix_record_other (fun ua hua => by rw [hv] at hua; cases hua)] at h
              simp only [Option.some.injEq, Prod.mk.injEq] at h
              obtain ⟨h1, -⟩ := h
              rw [← h1]
              exact hp
          | arr xs =>
              rw [fix_record_other (fun ua hua => by rw [hv] at hua; cases hua)] at h
              simp only [Option.some.injEq, Prod.mk.injEq] at h
              obtain ⟨h1, -⟩ := h
              rw [← h1]
              exact hp
          | obj fs =>
              rw [fix_record_other (fun ua hua => by rw [hv] at hua; cases hua)] at h
              simp only [Option.some.injEq, Prod.mk.injEq] at h
              obtain ⟨h1, -⟩ := h
              rw [← h1]
              exact hp
      | none =>
          rw [fix_record_other (fun ua hua => by rw [hv] at hua; cases hua)] at h
          simp only [Option.some.injEq, Prod.mk.injEq] at h
          obtain ⟨h1, -⟩ := h
          rw [← h1]
          exact hp
  | null => cases h
  | jbool b2 => cases h
  | num m e => cases h
  | str s => cases h
  | arr xs => cases h

theorem fix_record_idem {p q : Json} {b : Bool}
    (h : fix_record p = some (q, b)) : fix_record q = some (q, false) := by
  cases p with
  | obj fields =>
      cases hv : List.lookup uaKey fields with
      | some v =>
          cases v with
          | str ua =>
              rw [fix_record_str hv] at h
              by_cases hc : (rstripSpaces ua != ua) = true
              · rw [if_pos hc] at h
                simp only [Option.some.injEq, Prod.mk.injEq] at h
                obtain ⟨h1, -⟩ := h
                rw [← h1, fix_record_str (dictSet_lookup fields uaKey _)]
                rw [rstripSpaces_idem]
                simp
              · rw [if_neg hc] at h
                simp only [Option.some.injEq, Prod.mk.injEq] at h
                obtain ⟨h1, -⟩ := h
                rw [← h1, fix_record_str hv]
                have heq : rstripSpaces ua = ua :=
                  bne_false_eq (Bool.not_eq_true _ ▸ hc)
                rw [heq]
                simp
          | null =>
              have ho := fix_record_other
                (fun ua hua => by rw [hv] at hua; cases hua)
              rw [ho] at h
              simp only [Option.some.injEq, Prod.mk.injEq] at h
              obtain ⟨h1, -⟩ := h
              rw [← h1, ho]
          | jbool b2 =>
              have ho := fix_record_other
                (fun ua hua => by rw [hv] at hua; cases hua)
              rw [ho] at h
              simp only [Option.some.injEq, Prod.mk.injEq] at h
              obtain ⟨h1, -⟩ := h
              rw [← h1, ho]
          | num m e =>
              have ho := fix_record_other
                (fun ua hua => by rw [hv] at hua; cases hua)
              rw [ho] at h
              simp only [Option.some.injEq, Prod.mk.injEq] at h
              obtain ⟨h1, -⟩ := h
              rw [← h1, ho]
          | arr xs =>
              have ho := fix_record_other
                (fun ua hua => by rw [hv] at hua; cases hua)
              rw [ho] at h
              simp only [Option.some.injEq, Prod.mk.injEq] at h
              obtain ⟨h1, -⟩ := h
              rw [← h1, ho]
          | obj fs =>
              have ho := fix_record_other
                (fun ua hua => by rw [hv] at hua; cases hua)
              rw [ho] at h
              simp only [Option.some.injEq, Prod.mk.injEq] at h
              obtain ⟨h1, -⟩ := h
              rw [← h1, ho]
      | none =>
          have ho := fix_record_other
            (fun ua hua => by rw [hv] at hua; cases hua)
          rw [ho] at h
          simp only [Option.some.injEq, Prod.mk.injEq] at h
          obtain ⟨h1, -⟩ := h
          rw [← h1, ho]
  | null => cases h
  | jbool b2 => cases h
  | num m e => cases h
  | str s => cases h
  | arr xs => cases h

/-- After the loop body, a string `useragent` never ends with a space, and
the other fields are untouched. -/
theorem fix_record_out {p q : Json} {b : Bool}
    (h : fix_record p = some (q, b)) :
    (∀ s, uaOf q = some s → pyEndswith ' ' s = false)
      ∧ otherFields q = otherFields p := by
  cases p with
  | obj fields =>
      cases hv : List.lookup uaKey fields with
      | some v =>
          cases v with
          | str ua =>
              rw [fix_record_str hv] at h
              by_cases hc : (rstripSpaces ua != ua) = true
              · rw [if_pos hc] at h
                simp only [Option.some.injEq, Prod.mk.injEq] at h
                obtain ⟨h1, -⟩ := h
                rw [← h1]
                constructor
                · intro s hs
                  rw [uaOf, dictSet_lookup] at hs
                  simp only [Option.some.injEq] at hs
                  rw [← hs]
                  exact rstripSpaces_no_trailing ua
                · rw [otherFields, otherFields, dictSet_filter_ne]
              · rw [if_neg hc] at h
                simp only [Option.some.injEq, Prod.mk.injEq] at h
                obtain ⟨h1, -⟩ := h
                rw [← h1]
                refine ⟨?_, rfl⟩
                intro s hs
                rw [uaOf, hv] at hs
                simp only [Option.some.injEq] at hs
                have heq : rstripSpaces ua = ua :=
                  bne_false_eq (Bool.not_eq_true _ ▸ hc)
                rw [← hs, ← heq]
                exact rstripSpaces_no_trailing ua
          | null =>
              rw [fix_record_other (fun ua hua => by rw [hv] at hua; cases hua)] at h
              simp only [Option.some.injEq, Prod.mk.injEq] at h
              obtain ⟨h1, -⟩ := h
              rw [← h1]
              refine ⟨?_, rfl⟩
              intro s hs
              rw [uaOf, hv] at hs
              cases hs
          | jbool b2 =>
              rw [fix_record_other (fun ua hua => by rw [hv] at hua; cases hua)] at h
              simp only [Option.some.injEq, Prod.mk.injEq] at h
              obtain ⟨h1, -⟩ := h
              rw [← h1]
              refine ⟨?_, rfl⟩
              intro s hs
              rw [uaOf, hv] at hs
              cases hs
          | num m e =>
              rw [fix_record_other (fun ua hua => by rw [hv] at hua; cases hua)] at h
              simp only [Option.some.injEq, Prod.mk.injEq] at h
              obtain ⟨h1, -⟩ := h
              rw [← h1]
              refine ⟨?_, rfl⟩
              intro s hs
              rw [uaOf, hv] at hs
              cases hs
          | arr xs =>
              rw [fix_record_other (fun ua hua => by rw [hv] at hua; cases hua)] at h
              simp only [Option.some.injEq, Prod.mk.injEq] at h
              obtain ⟨h1, -⟩ := h
              rw [← h1]
              refine ⟨?_, rfl⟩
              intro s hs
              rw [uaOf, hv] at hs
              cases hs
          | obj fs =>
              rw [fix_record_other (fun ua hua => by rw [hv] at hua; cases hua)] at h
              simp only [Option.some.injEq, Prod.mk.injEq] at h
              obtain ⟨h1, -⟩ := h
              rw [← h1]
              refine ⟨?_, rfl⟩
              intro s hs
              rw [uaOf, hv] at hs
              cases hs
      | none =>
          rw [fix_record_other (fun ua hua => by rw [hv] at hua; cases hua)] at h
          simp only [Option.some.injEq, Prod.mk.injEq] at h
          obtain ⟨h1, -⟩ := h
          rw [← h1]
          refine ⟨?_, rfl⟩
          intro s hs
          rw [uaOf, hv] at hs
          cases hs
  | null => cases h
  | jbool b2 => cases h
  | num m e => cases h
  | str s => cases h
  | arr xs => cases h

/-- The `fix_browsers_json` loop body on a record with a string
`useragent`: touched only when the value ends with a space. -/
theorem opus_fix_record_str {fields : List (Str × Json)} {ua : Str}
    (h : List.lookup uaKey fields = some (.str ua)) :
    opus_fix_record (.obj fields)
      = some (if pyEndswith ' ' ua = true
          then (Json.obj (dictSet fields uaKey (.str (pyRstrip ua))), true)
          else (Json.obj fields, false)) := by
  rw [opus_fix_record, dictGetD, dictGet?, h]
  show (if pyEndswith ' ' ua = true
      then some (Json.obj (dictSet fields uaKey (.str (pyRstrip ua))), true)
      else some (Json.obj fields, false)) = _
  by_cases hc : pyEndswith ' ' ua = true
  · rw [if_pos hc, if_pos hc]
  · rw [if_neg hc, if_neg hc]

/-- A missing `useragent` key defaults to the empty string: untouched. -/
theorem opus_fix_record_absent {fields : List (Str × Json)}
    (h : List.lookup uaKey fields = none) :
    opus_fix_record (.obj fields) = some (.obj fields, false) := by
  rw [opus_fix_record, dictGetD, dictGet?, h]
  rfl

/-- A non-string `useragent` value raises (`ua.endswith` on a non-str). -/
theorem opus_fix_record_nonstr {fields : List (Str × Json)} {v : Json}
    (h : List.lookup uaKey fields = some v) (hv : ∀ s, v ≠ .str s) :
    opus_fix_record (.obj fields) = none := by
  rw [opus_fix_record, dictGetD, dictGet?, h]
  cases v with
  | str s => exact absurd rfl (hv s)
  | null => rfl
  | jbool b => rfl
  | num m e => rfl
  | arr xs => rfl
  | obj fs => rfl

theorem opus_fix_record_wf {p q : Json} {b : Bool} (hp : Json.wf p = true)
    (h : opus_fix_record p = some (q, b)) : Json.wf q = true := by
  cases p with
  | obj fields =>
      have hsplit : (noDupKeys fields && jsonFieldsWf fields) = true := hp
      rw [Bool.and_eq_true] at hsplit
      cases hv : List.lookup uaKey fields with
      | none =>
          rw [opus_fix_record_absent hv] at h
          simp only [Option.some.injEq, Prod.mk.injEq] at h
          obtain ⟨h1, -⟩ := h
          rw [← h1]
          exact hp
      | some v =>
          cases v with
          | str ua =>
              rw [opus_fix_record_str hv] at h
              by_cases hc : pyEndswith ' ' ua = true
              · rw [if_pos hc] at h
                simp only [Option.some.injEq, Prod.mk.injEq] at h
                obtain ⟨h1, -⟩ := h
                rw [← h1]
                show (noDupKeys (dictSet fields uaKey (.str (pyRstrip ua)))
                  && jsonFieldsWf (dictSet fields uaKey (.str (pyRstrip ua)))) = true
                rw [Bool.and_eq_true]
                exact ⟨noDupKeys_dictSet _ _ hsplit.1, jsonFieldsWf_dictSet hsplit.2 rfl⟩
              · rw [if_neg hc] at h
                simp only [Option.some.injEq, Prod.mk.injEq] at h
                obtain ⟨h1, -⟩ := h
                rw [← h1]
                exact hp
          | null => rw [opus_fix_record_nonstr hv (fun s hs => Json.noConfusion hs)] at h; cases h
          | jbool b2 => rw [opus_fix_record_nonstr hv (fun s hs => Json.noConfusion hs)] at h; cases h
          | num m e => rw [opus_fix_record_nonstr hv (fun s hs => Json.noConfusion hs)] at h; cases h
          | arr xs => rw [opus_fix_record_nonstr hv (fun s hs => Json.noConfusion hs)] at h; cases h
          | obj fs => rw [opus_fix_record_nonstr hv (fun s hs => Json.noConfusion hs)] at h; cases h
  | null => cases h
  | jbool b2 => cases h
  | num m e => cases h
  | str s => cases h
  | arr xs => cases h

theorem opus_fix_record_idem {p q : Json} {b : Bool}
    (h : opus_fix_record p = some (q, b)) : opus_fix_record q = some (q, false) := by
  cases p with
  | obj fields =>
      cases hv : List.lookup uaKey fields with
      | none =>
          rw [opus_fix_record_absent hv] at h
          simp only [Option.some.injEq, Prod.mk.injEq] at h
          obtain ⟨h1, -⟩ := h
          rw [← h1, opus_fix_record_absent hv]
      | some v =>
          cases v with
          | str ua =>
              rw [opus_fix_record_str hv] at h
              by_cases hc : pyEndswith ' ' ua = true
              · rw [if_pos hc] at h
                simp only [Option.some.injEq, Prod.mk.injEq] at h
                obtain ⟨h1, -⟩ := h
                rw [← h1, opus_fix_record_str (dictSet_lookup fields uaKey _),
                  if_neg (by rw [pyRstrip_no_trailing ua]; simp)]
              · rw [if_neg hc] at h
                simp only [Option.some.injEq, Prod.mk.injEq] at h
                obtain ⟨h1, -⟩ := h
                rw [← h1, opus_fix_record_str hv, if_neg hc]
          | null => rw [opus_fix_record_nonstr hv (fun s hs => Json.noConfusion hs)] at h; cases h
          | jbool b2 => rw [opus_fix_record_nonstr hv (fun s hs => Json.noConfusion hs)] at h; cases h
          | num m e => rw [opus_fix_record_nonstr hv (fun s hs => Json.noConfusion hs)] at h; cases h
          | arr xs => rw [opus_fix_record_nonstr hv (fun s hs => Json.noConfusion hs)] at h; cases h
          | obj fs => rw [opus_fix_record_nonstr hv (fun s hs => Json.noConfusion hs)] at h; cases h
  | null => cases h
  | jbool b2 => cases h
  | num m e => cases h
  | str s => cases h
  | arr xs => cases h

theorem opus_fix_record_out {p q : Json} {b : Bool}
    (h : opus_fix_record p = some (q, b)) :
    (∀ s, uaOf q = some s → pyEndswith ' ' s = false)
      ∧ otherFields q = otherFields p := by
  cases p with
  | obj fields =>
      cases hv : List.lookup uaKey fields with
      | none =>
          rw [opus_fix_record_absent hv] at h
          simp only [Option.some.injEq, Prod.mk.injEq] at h
          obtain ⟨h1, -⟩ := h
          rw [← h1]
          refine ⟨?_, rfl⟩
          intro s hs
          rw [uaOf, hv] at hs
          cases hs
      | some v =>
          cases v with
          | str ua =>
              rw [opus_fix_record_str hv] at h
              by_cases hc : pyEndswith ' ' ua = true
              · rw [if_pos hc] at h
                simp only [Option.some.injEq, Prod.mk.injEq] at h
                obtain ⟨h1, -⟩ := h
                rw [← h1]
                constructor
                · intro s hs
                  rw [uaOf, dictSet_lookup] at hs
                  simp only [Option.some.injEq] at hs
                  rw [← hs]
                  exact pyRstrip_no_trailing ua
                · rw [otherFields, otherFields, dictSet_filter_ne]
              · rw [if_neg hc] at h
                simp only [Option.some.injEq, Prod.mk.injEq] at h
                obtain ⟨h1, -⟩ := h
                rw [← h1]
                refine ⟨?_, rfl⟩
                intro s hs
                rw [uaOf, hv] at hs
                simp only [Option.some.injEq] at hs
                rw [← hs]
                exact Bool.not_eq_true _ ▸ hc
          | null => rw [opus_fix_record_nonstr hv (fun s hs => Json.noConfusion hs)] at h; cases h
          | jbool b2 => rw [opus_fix_record_nonstr hv (fun s hs => Json.noConfusion hs)] at h; cases h
          | num m e => rw [opus_fix_record_nonstr hv (fun s hs => Json.noConfusion hs)] at h; cases h
          | arr xs => rw [opus_fix_record_nonstr hv (fun s hs => Json.noConfusion hs)] at h; cases h
          | obj fs => rw [opus_fix_record_nonstr hv (fun s hs => Json.noConfusion hs)] at h; cases h
  | null => cases h
  | jbool b2 => cases h
  | num m e => cases h
  | str s => cases h
  | arr xs => cases h

/-! ## List-level facts about `fix_useragents` -/

theorem fix_useragents_cons {rec : Json} {rest : List Json} {rc : Json}
    {changed : Bool} {rs2 : List Json} {n2 : Nat}
    (h1 : fix_record rec = some (rc, changed))
    (h2 : fix_useragents rest = some (rs2, n2)) :
    fix_useragents (rec :: rest)
      = some (rc :: rs2, n2 + (if changed then 1 else 0)) := by
  rw [fix_useragents, h1, h2]

theorem fix_useragents_spec : ∀ {rs rs' : List Json} {n : Nat},
    fix_useragents rs = some (rs', n) →
    rs'.length = rs.length
    ∧ fix_useragents rs' = some (rs', 0)
    ∧ (∀ r' ∈ rs', ∀ s, uaOf r' = some s → pyEndswith ' ' s = false)
    ∧ List.map otherFields rs' = List.map otherFields rs
    ∧ ((∀ r ∈ rs, Json.wf r = true) → ∀ r' ∈ rs', Json.wf r' = true) := by
  intro rs
  induction rs with
  | nil =>
      intro rs' n h
      rw [fix_useragents] at h
      simp only [Option.some.injEq, Prod.mk.injEq] at h
      obtain ⟨h1, -⟩ := h
      subst h1
      exact ⟨rfl, rfl, fun r hr => absurd hr (List.not_mem_nil r), rfl,
        fun _ r hr => absurd hr (List.not_mem_nil r)⟩
  | cons rec rest ih =>
      intro rs' n h
      rw [fix_useragents] at h
      cases hfr : fix_record rec with
      | none =>
          simp only [hfr] at h
          contradiction
      | some rcb =>
          obtain ⟨rc, changed⟩ := rcb
          simp only [hfr] at h
          cases hrest : fix_useragents rest with
          | none =>
              simp only [hrest] at h
              contradiction
          | some rsn =>
              obtain ⟨rs2, n2⟩ := rsn
              simp only [hrest, Option.some.injEq, Prod.mk.injEq] at h
              obtain ⟨h1, -⟩ := h
              subst h1
              obtain ⟨ihlen, ihidem, ihout, ihframe, ihwf⟩ := ih hrest
              refine ⟨?_, ?_, ?_, ?_, ?_⟩
              · simp only [List.length_cons, ihlen]
              · rw [fix_useragents_cons (fix_record_idem hfr) ihidem]
                simp
              · intro r' hr' s hs
                rcases List.mem_cons.mp hr' with hr1 | hr1
                · subst hr1
                  exact (fix_record_out hfr).1 s hs
                · exact ihout r' hr1 s hs
              · simp only [List.map_cons, ihframe, (fix_record_out hfr).2]
              · intro hall r' hr'
                rcases List.mem_cons.mp hr' with hr1 | hr1
                · subst hr1
                  exact fix_record_wf (hall rec (List.mem_cons_self rec rest)) hfr
                · exact ihwf (fun r hr => hall r (List.mem_cons_of_mem _ hr)) r' hr1

/-! ## Facts about the gpt `fix_file` loop -/

theorem fixFileRecords_spec : ∀ (lines : List Str) (i : Nat) {recs : List Json} {n : Nat},
    fixFileRecords i lines = .ok (recs, n) →
    (∀ r ∈ recs, Json.wf r = true)
    ∧ (∀ r ∈ recs, clean_record r = some (r, false))
    ∧ (∀ r ∈ recs, ∃ s, uaOf r = some s ∧ pyEndswith ' ' s = false
        ∧ pyStartswith ' ' s = false)
    ∧ (load_jsonl_aux i lines).map List.length = .ok recs.length := by
  intro lines
  induction lines with
  | nil =>
      intro i recs n h
      rw [fixFileRecords] at h
      simp only [Except.ok.injEq, Prod.mk.injEq] at h
      obtain ⟨h1, -⟩ := h
      subst h1
      exact ⟨fun r hr => absurd hr (List.not_mem_nil r),
        fun r hr => absurd hr (List.not_mem_nil r),
        fun r hr => absurd hr (List.not_mem_nil r), rfl⟩
  | cons line rest ih =>
      intro i recs n h
      rw [fixFileRecords] at h
      by_cases hb : pyStrip line = []
      · rw [if_pos hb] at h
        obtain ⟨ihwf, ihcl, ihua, ihload⟩ := ih (i + 1) h
        refine ⟨ihwf, ihcl, ihua, ?_⟩
        rw [load_jsonl_aux, if_pos hb]
        exact ihload
      · rw [if_neg hb] at h
        cases hl : json_loads line with
        | error e =>
            simp only [hl] at h
            contradiction
        | ok payload =>
            simp only [hl] at h
            cases hc : clean_record payload with
            | none =>
                simp only [hc] at h
                contradiction
            | some cb =>
                obtain ⟨cleaned, changed⟩ := cb
                simp only [hc] at h
                cases hrest : fixFileRecords (i + 1) rest with
                | error e =>
                    simp only [hrest] at h
                    contradiction
                | ok rn =>
                    obtain ⟨recs2, f2⟩ := rn
                    simp only [hrest, Except.ok.injEq, Prod.mk.injEq] at h
                    obtain ⟨h1, -⟩ := h
                    subst h1
                    obtain ⟨ihwf, ihcl, ihua, ihload⟩ := ih (i + 1) hrest
                    refine ⟨?_, ?_, ?_, ?_⟩
                    · intro r hr
                      rcases List.mem_cons.mp hr with hr1 | hr1
                      · subst hr1
                        exact clean_record_wf (json_loads_wf hl) hc
                      · exact ihwf r hr1
                    · intro r hr
                      rcases List.mem_cons.mp hr with hr1 | hr1
                      · subst hr1
                        exact clean_record_idem hc
                      · exact ihcl r hr1
                    · intro r hr
                      rcases List.mem_cons.mp hr with hr1 | hr1
                      · subst hr1
                        obtain ⟨⟨s, hs1, hs2, hs3⟩, -⟩ := clean_record_out hc
                        exact ⟨s, hs1, hs2, hs3⟩
                      · exact ihua r hr1
                    · rw [load_jsonl_aux, if_neg hb, hl]
                      cases hload2 : load_jsonl_aux (i + 1) rest with
                      | error e =>
                          rw [hload2] at ihload
                          contradiction
                      | ok origs2 =>
                          rw [hload2] at ihload
                          simp only [Except.map, Except.ok.injEq] at ihload
                          simp only [Except.map, List.length_cons, Except.ok.injEq, ihload]

/-- The cleaned records of `fixFileRecords` re-clean to themselves, so a
second `fix_file` run on the output changes nothing. -/
theorem fixFileRecords_saved : ∀ (recs : List Json) (i : Nat),
    (∀ r ∈ recs, Json.wf r = true) →
    (∀ r ∈ recs, clean_record r = some (r, false)) →
    fixFileRecords i (List.map dumps recs) = .ok (recs, 0) := by
  intro recs
  induction recs with
  | nil => intro i _ _; rfl
  | cons rec rest ih =>
      intro i hwf hcl
      rw [List.map_cons, fixFileRecords, if_neg (pyStrip_dumps_ne_nil rec)]
      simp only [json_loads_dumps (hwf rec (List.mem_cons_self rec rest)),
        hcl rec (List.mem_cons_self rec rest),
        ih (i + 1) (fun r hr => hwf r (List.mem_cons_of_mem _ hr))
          (fun r hr => hcl r (List.mem_cons_of_mem _ hr))]
      rfl

/-! ## Error localization in the loaders -/

theorem load_jsonl_aux_error : ∀ (pre : List Str) (i : Nat) {line : Str}
    {post : List Str} {msg : String},
    (∀ l ∈ pre, pyStrip l = [] ∨ ∃ j, json_loads l = .ok j) →
    pyStrip line ≠ [] → json_loads line = .error msg →
    load_jsonl_aux i (pre ++ line :: post) = .error (i + pre.length, msg) := by
  intro pre
  induction pre with
  | nil =>
      intro i line post msg _ hb he
      rw [List.nil_append, load_jsonl_aux, if_neg hb, he]
      rfl
  | cons p pre' ih =>
      intro i line post msg hpre hb he
      rw [List.cons_append, load_jsonl_aux]
      rcases hpre p (List.mem_cons_self p pre') with hp | ⟨j, hp⟩
      · rw [if_pos hp, ih (i + 1) (fun l hl => hpre l (List.mem_cons_of_mem _ hl)) hb he]
        simp only [List.length_cons]
        congr 2
        omega
      · by_cases hpb : pyStrip p = []
        · rw [if_pos hpb, ih (i + 1) (fun l hl => hpre l (List.mem_cons_of_mem _ hl)) hb he]
          simp only [List.length_cons]
          congr 2
          omega
        · rw [if_neg hpb, hp,
            ih (i + 1) (fun l hl => hpre l (List.mem_cons_of_mem _ hl)) hb he]
          simp only [List.length_cons]
          congr 2
          omega

theorem fixFileRecords_error : ∀ (pre : List Str) (i : Nat) {line : Str}
    {post : List Str} {msg : String},
    (∀ l ∈ pre, pyStrip l = []
      ∨ ∃ j q b, json_loads l = .ok j ∧ clean_record j = some (q, b)) →
    pyStrip line ≠ [] → json_loads line = .error msg →
    fixFileRecords i (pre ++ line :: post)
      = .error (.valueError (i + pre.length) msg) := by
  intro pre
  induction pre with
  | nil =>
      intro i line post msg _ hb he
      rw [List.nil_append, fixFileRecords, if_neg hb, he]
      rfl
  | cons p pre' ih =>
      intro i line post msg hpre hb he
      rw [List.cons_append, fixFileRecords]
      rcases hpre p (List.mem_cons_self p pre') with hp | ⟨j, q, b, hp1, hp2⟩
      · rw [if_pos hp, ih (i + 1) (fun l hl => hpre l (List.mem_cons_of_mem _ hl)) hb he]
        simp only [List.length_cons]
        congr 2
        omega
      · by_cases hpb : pyStrip p = []
        · rw [if_pos hpb, ih (i + 1) (fun l hl => hpre l (List.mem_cons_of_mem _ hl)) hb he]
          simp only [List.length_cons]
          congr 2
          omega
        · rw [if_neg hpb]
          simp only [hp1, hp2,
            ih (i + 1) (fun l hl => hpre l (List.mem_cons_of_mem _ hl)) hb he,
            List.length_cons]
          congr 2
          omega

/-- A malformed line is reported and skipped by the Opus pipeline. -/
theorem fix_browsers_json_skip {line : Str} (rest : List Str) {msg : String}
    (hb : pyStrip line ≠ []) (he : json_loads (pyStrip line) = .error msg) :
    fix_browsers_json (line :: rest)
      = match fix_browsers_json rest with
        | some (ls, (t, f, u, e)) => some (ls, (t, f, u, e + 1))
        | none => none := by
  rw [fix_browsers_json, if_neg hb, he]

/-! ## Counting through the Opus pipeline -/

theorem fix_browsers_json_ok : ∀ (lines : List Str) (i : Nat) {origs : List Json}
    {ls : List Str} {t f u e : Nat},
    load_jsonl_aux i (lines.map pyStrip) = .ok origs →
    fix_browsers_json lines = some (ls, (t, f, u, e)) →
    t = origs.length ∧ e = 0
      ∧ ∃ recs, ls = save_jsonl recs ∧ recs.length = t
          ∧ (∀ r ∈ recs, Json.wf r = true) := by
  intro lines
  induction lines with
  | nil =>
      intro i origs ls t f u e hload hfix
      rw [List.map_nil, load_jsonl_aux] at hload
      rw [fix_browsers_json] at hfix
      simp only [Except.ok.injEq] at hload
      simp only [Option.some.injEq, Prod.mk.injEq] at hfix
      obtain ⟨h1, h2, h3, h4, h5⟩ := hfix
      subst hload h1 h2
      exact ⟨rfl, h5.symm, [], rfl, rfl, fun r hr => absurd hr (List.not_mem_nil r)⟩
  | cons line rest ih =>
      intro i origs ls t f u e hload hfix
      rw [List.map_cons, load_jsonl_aux] at hload
      rw [fix_browsers_json] at hfix
      by_cases hb : pyStrip line = []
      · rw [if_pos (by rw [pyStrip_idem]; exact hb)] at hload
        rw [if_pos hb] at hfix
        exact ih (i + 1) hload hfix
      · rw [if_neg (by rw [pyStrip_idem]; exact hb)] at hload
        rw [if_neg hb] at hfix
        cases hl : json_loads (pyStrip line) with
        | error e2 =>
            rw [hl] at hload
            contradiction
        | ok v =>
            rw [hl] at hload
            rw [hl] at hfix
            cases hrest : load_jsonl_aux (i + 1) (rest.map pyStrip) with
            | error e2 =>
                rw [hrest] at hload
                contradiction
            | ok origs2 =>
                rw [hrest] at hload
                simp only [Except.ok.injEq] at hload
                subst hload
                cases hop : opus_fix_record v with
                | none =>
                    simp only [hop] at hfix
                    contradiction
                | some fb =>
                    obtain ⟨fd, changed⟩ := fb
                    simp only [hop] at hfix
                    cases hfr : fix_browsers_json rest with
                    | none =>
                        simp only [hfr] at hfix
                        contradiction
                    | some lsst =>
                        obtain ⟨ls2, t2, f2, u2, e2⟩ := lsst
                        simp only [hfr, Option.some.injEq, Prod.mk.injEq] at hfix
                        obtain ⟨h1, h2, h3, h4, h5⟩ := hfix
                        obtain ⟨iht, ihe, recs2, ihls, ihlen, ihwf⟩ := ih (i + 1) hrest hfr
                        subst h1 h2 h5
                        refine ⟨by simp [iht], by omega, fd :: recs2, ?_, ?_, ?_⟩
                        · rw [save_jsonl, List.map_cons, ← save_jsonl, ihls]
                        · simp [ihlen, iht]
                        · intro r hr
                          rcases List.mem_cons.mp hr with hr1 | hr1
                          · subst hr1
                            exact opus_fix_record_wf (json_loads_wf hl) hop
                          · exact ihwf r hr1

theorem fix_browsers_json_out : ∀ (lines : List Str) {ls : List Str} {t f u e : Nat},
    fix_browsers_json lines = some (ls, (t, f, u, e)) →
    ∀ l ∈ ls, ∃ q, l = dumps q ∧ ∀ s, uaOf q = some s → pyEndswith ' ' s = false := by
  intro lines
  induction lines with
  | nil =>
      intro ls t f u e h
      rw [fix_browsers_json] at h
      simp only [Option.some.injEq, Prod.mk.injEq] at h
      obtain ⟨h1, -⟩ := h
      subst h1
      intro l hl
      exact absurd hl (List.not_mem_nil l)
  | cons line rest ih =>
      intro ls t f u e h
      rw [fix_browsers_json] at h
      by_cases hb : pyStrip line = []
      · rw [if_pos hb] at h
        exact ih h
      · rw [if_neg hb] at h
        cases hl : json_loads (pyStrip line) with
        | error msg =>
            rw [hl] at h
            cases hrest : fix_browsers_json rest with
            | none =>
                simp only [hrest] at h
                contradiction
            | some p =>
                obtain ⟨ls2, t2, f2, u2, e2⟩ := p
                simp only [hrest, Option.some.injEq, Prod.mk.injEq] at h
                obtain ⟨h1, -⟩ := h
                subst h1
                exact ih hrest
        | ok v =>
            rw [hl] at h
            cases hop : opus_fix_record v with
            | none =>
                simp only [hop] at h
                contradiction
            | some fb =>
                obtain ⟨fd, changed⟩ := fb
                simp only [hop] at h
                cases hrest : fix_browsers_json rest with
                | none =>
                    simp only [hrest] at h
                    contradiction
                | some p =>
                    obtain ⟨ls2, t2, f2, u2, e2⟩ := p
                    simp only [hrest, Option.some.injEq, Prod.mk.injEq] at h
                    obtain ⟨h1, -⟩ := h
                    subst h1
                    intro l hl2
                    rcases List.mem_cons.mp hl2 with hl3 | hl3
                    · exact ⟨fd, hl3, (opus_fix_record_out hop).1⟩
                    · exact ih hrest l hl3

/-! ## Helper notions used by the claim statements -/

/-- A field value that is a string or a (canonically represented) number. -/
def strOrNum : Json → Bool
  | .str _ => true
  | .num m e => wfNum m e
  | _ => false

theorem strOrNum_wf {v : Json} (h : strOrNum v = true) : Json.wf v = true := by
  cases v with
  | str s => rfl
  | num m e => exact h
  | null => simp [strOrNum] at h
  | jbool b => simp [strOrNum] at h
  | arr xs => simp [strOrNum] at h
  | obj fs => simp [strOrNum] at h

theorem jsonFieldsWf_of_all {fields : List (Str × Json)}
    (h : fields.all (fun kv => strOrNum kv.2) = true) :
    jsonFieldsWf fields = true := by
  induction fields with
  | nil => rfl
  | cons kv rest ih =>
      obtain ⟨k, v⟩ := kv
      rw [List.all_cons, Bool.and_eq_true] at h
      rw [jsonFieldsWf, Bool.and_eq_true]
      exact ⟨strOrNum_wf h.1, ih h.2⟩

/-- `json.dumps(…, ensure_ascii=False)` leaves every character at or above
U+0020 other than the quote and the backslash unescaped. -/
theorem escChar_plain {c : Char} (h1 : 0x20 ≤ c.toNat) (h2 : c ≠ '"')
    (h3 : c ≠ '\\') : escChar c = [c] := by
  have hq : (c == '"') = false := by rw [beq_eq_false_iff_ne]; exact h2
  have hb : (c == '\\') = false := by rw [beq_eq_false_iff_ne]; exact h3
  have hn : (c == '\n') = false := by
    rw [beq_eq_false_iff_ne]
    intro hx
    rw [hx] at h1
    exact absurd h1 (by decide)
  have hr : (c == '\r') = false := by
    rw [beq_eq_false_iff_ne]
    intro hx
    rw [hx] at h1
    exact absurd h1 (by decide)
  have ht : (c == '\t') = false := by
    rw [beq_eq_false_iff_ne]
    intro hx
    rw [hx] at h1
    exact absurd h1 (by decide)
  have h8 : (c == '\x08') = false := by
    rw [beq_eq_false_iff_ne]
    intro hx
    rw [hx] at h1
    exact absurd h1 (by decide)
  have hc : (c == '\x0c') = false := by
    rw [beq_eq_false_iff_ne]
    intro hx
    rw [hx] at h1
    exact absurd h1 (by decide)
  rw [escChar, if_neg (by rw [hq]; exact Bool.false_ne_true),
    if_neg (by rw [hb]; exact Bool.false_ne_true),
    if_neg (by rw [hn]; exact Bool.false_ne_true),
    if_neg (by rw [hr]; exact Bool.false_ne_true),
    if_neg (by rw [ht]; exact Bool.false_ne_true),
    if_neg (by rw [h8]; exact Bool.false_ne_true),
    if_neg (by rw [hc]; exact Bool.false_ne_true),
    if_neg (by omega)]

theorem bool_all_not_any (p : Char → Bool) :
    ∀ s : Str, s.all (fun c => !(p c)) = !(s.any p) := by
  intro s
  induction s with
  | nil => rfl
  | cons a t ih => rw [List.all_cons, List.any_cons, Bool.not_or, ih]

/-- A right-stripped string is a front segment of the original. -/
theorem rstripWith_front (p : Char → Bool) (s : Str) : rstripWith p s <+: s := by
  obtain ⟨t, ht, -⟩ := rstripWith_append p s
  exact ⟨t, ht.symm⟩

/-- A left-stripped string is a back segment of the original. -/
theorem lstripWith_back (p : Char → Bool) (s : Str) : lstripWith p s <:+ s := by
  refine ⟨s.takeWhile p, ?_⟩
  rw [lstripWith]
  exact List.takeWhile_append_dropWhile p s

/-- `strip` yields a contiguous segment of the original string. -/
theorem pyStrip_sub (s : Str) : pyStrip s <:+: s := by
  obtain ⟨u, hu⟩ := lstripWith_back isPySpace s
  obtain ⟨t, ht, -⟩ := rstripWith_append isPySpace (lstripWith isPySpace s)
  refine ⟨u, t, ?_⟩
  calc u ++ pyStrip s ++ t
      = u ++ (rstripWith isPySpace (lstripWith isPySpace s) ++ t) := by
        rw [pyStrip, List.append_assoc]
    _ = u ++ lstripWith isPySpace s := by rw [← ht]
    _ = s := hu

theorem front_sub {l s : Str} (h : l <+: s) : l <:+: s := by
  obtain ⟨t, ht⟩ := h
  exact ⟨[], t, ht⟩

theorem sub_length_le {l s : Str} (h : l <:+: s) : l.length ≤ s.length := by
  obtain ⟨u, t, hut⟩ := h
  rw [← hut]
  simp only [List.length_append]
  omega

/-! ## Sample data for concrete instantiations -/

/-- `{"useragent": "a"}` as a line of characters. -/
def uaLineA : Str :=
  ['{', '"', 'u', 's', 'e', 'r', 'a', 'g', 'e', 'n', 't', '"', ':', ' ', '"', 'a', '"', '}']

/-- `{"useragent": "a "}` (trailing space) as a line of characters. -/
def uaLineASp : Str :=
  ['{', '"', 'u', 's', 'e', 'r', 'a', 'g', 'e', 'n', 't', '"', ':', ' ', '"', 'a', ' ', '"', '}']

/-- The record `{"useragent": "a"}`. -/
def recA : Json := Json.obj [(uaKey, Json.str ['a'])]

/-- The record `{"useragent": "a "}`. -/
def recASp : Json := Json.obj [(uaKey, Json.str ['a', ' '])]

/-- The field list of `recASp`. -/
def fsASp : List (Str × Json) := [(uaKey, Json.str ['a', ' '])]

/-- A field list without a `useragent` key. -/
def fsOS : List (Str × Json) := [(['o', 's'], Json.str ['x'])]

/-- A field list with a numeric `useragent`. -/
def fsNum : List (Str × Json) := [(uaKey, Json.num 3 0)]

instance {ε α : Type} [DecidableEq ε] [DecidableEq α] : DecidableEq (Except ε α)
  | .ok x, .ok y =>
      if h : x = y then .isTrue (congrArg Except.ok h)
      else .isFalse (fun hc => h (Except.ok.inj hc))
  | .ok _, .error _ => .isFalse (fun hc => Except.noConfusion hc)
  | .error _, .ok _ => .isFalse (fun hc => Except.noConfusion hc)
  | .error d, .error e =>
      if h : d = e then .isTrue (congrArg Except.error h)
      else .isFalse (fun hc => h (Except.error.inj hc))

/-! ## The claims -/

/-- C1: for a record whose `useragent` is a string, the three normalizers
behave as follows — gpt strips all surrounding whitespace and always
assigns back (`changed` iff the value moved); oswe strips trailing
U+0020 runs only, assigning back only on change; Opus strips all trailing
whitespace, and only when the value ends in a space.  (The claim's
"leading and trailing space characters only" rule matches none of them;
see the counterexample.) -/
theorem claim_C1 :
    (∀ (fields : List (Str × Json)) (ua : Str),
      List.lookup uaKey fields = some (.str ua) →
      clean_record (.obj fields)
        = some (.obj (dictSet fields uaKey (.str (pyStrip ua))), pyStrip ua != ua))
    ∧ (∀ (fields : List (Str × Json)) (ua : Str),
      List.lookup uaKey fields = some (.str ua) →
      fix_record (.obj fields)
        = some (if rstripSpaces ua != ua
            then (Json.obj (dictSet fields uaKey (.str (rstripSpaces ua))), true)
            else (Json.obj fields, false)))
    ∧ (∀ (fields : List (Str × Json)) (ua : Str),
      List.lookup uaKey fields = some (.str ua) →
      opus_fix_record (.obj fields)
        = some (if pyEndswith ' ' ua = true
            then (Json.obj (dictSet fields uaKey (.str (pyRstrip ua))), true)
            else (Json.obj fields, false))) :=
  ⟨fun _ _ h => clean_record_str h,
   fun _ _ h => fix_record_str h,
   fun _ _ h => opus_fix_record_str h⟩

theorem claim_C1_witness :
    clean_record (.obj fsASp)
      = some (.obj (dictSet fsASp uaKey (.str (pyStrip ['a', ' ']))),
          pyStrip ['a', ' '] != ['a', ' ']) :=
  claim_C1.1 fsASp ['a', ' '] (by decide)

/-- C1 fails as stated on all three variants: oswe keeps leading spaces,
gpt and Opus also remove trailing tabs, unlike the space-only spec rule. -/
theorem claim_C1_cex :
    clean_record (.obj [(uaKey, Json.str ['a', '\t'])])
      = some (.obj [(uaKey, Json.str ['a'])], true)
    ∧ fix_record (.obj [(uaKey, Json.str [' ', 'a'])])
      = some (.obj [(uaKey, Json.str [' ', 'a'])], false)
    ∧ opus_fix_record (.obj [(uaKey, Json.str ['a', '\t', ' '])])
      = some (.obj [(uaKey, Json.str ['a'])], true)
    ∧ spec_strip_spaces ['a', '\t'] = ['a', '\t']
    ∧ spec_strip_spaces [' ', 'a'] = ['a']
    ∧ spec_strip_spaces ['a', '\t', ' '] = ['a', '\t'] := by decide

/-- C2: every `useragent` in the output of any of the three pipelines has
no trailing space; the gpt pipeline also guarantees no leading space.
(The claim's further "no leading space, no double space" parts fail for
the oswe and Opus pipelines; see the counterexample.) -/
theorem claim_C2 :
    (∀ (rs rs' : List Json) (n : Nat), fix_useragents rs = some (rs', n) →
      ∀ r' ∈ rs', ∀ s, uaOf r' = some s → pyEndswith ' ' s = false)
    ∧ (∀ (lines : List Str) (i : Nat) (recs : List Json) (n : Nat),
      fixFileRecords i lines = .ok (recs, n) →
      ∀ r ∈ recs, ∃ s, uaOf r = some s ∧ pyEndswith ' ' s = false
        ∧ pyStartswith ' ' s = false)
    ∧ (∀ (lines ls : List Str) (t f u e : Nat),
      fix_browsers_json lines = some (ls, (t, f, u, e)) →
      ∀ l ∈ ls, ∃ q, l = dumps q ∧ ∀ s, uaOf q = some s → pyEndswith ' ' s = false) :=
  ⟨fun _ _ _ h => (fix_useragents_spec h).2.2.1,
   fun lines i _ _ h => (fixFileRecords_spec lines i h).2.2.1,
   fun lines _ _ _ _ _ h => fix_browsers_json_out lines h⟩

theorem claim_C2_witness :
    (∀ r' ∈ [recA], ∀ s, uaOf r' = some s → pyEndswith ' ' s = false)
    ∧ (∀ r ∈ [recA], ∃ s, uaOf r = some s ∧ pyEndswith ' ' s = false
        ∧ pyStartswith ' ' s = false)
    ∧ (∀ l ∈ [uaLineA], ∃ q, l = dumps q
        ∧ ∀ s, uaOf q = some s → pyEndswith ' ' s = false) :=
  ⟨claim_C2.1 [recASp] [recA] 1 (by decide),
   claim_C2.2.1 [uaLineASp] 1 [recA] 1 (by decide),
   claim_C2.2.2 [uaLineASp] [uaLineA] 1 1 0 0 (by decide)⟩

/-- C2 fails as stated: the oswe pipeline keeps leading and doubled
internal spaces. -/
theorem claim_C2_cex :
    fix_useragents [Json.obj [(uaKey, Json.str [' ', 'a', ' ', ' ', 'b'])]]
      = some ([Json.obj [(uaKey, Json.str [' ', 'a', ' ', ' ', 'b'])]], 0)
    ∧ pyStartswith ' ' [' ', 'a', ' ', ' ', 'b'] = true
    ∧ hasDoubleSpace [' ', 'a', ' ', ' ', 'b'] = true := by decide

/-- C3: a non-blank unparseable line makes the oswe loader and the gpt
pipeline abort with that line's 1-based number and the parser diagnostic,
while the Opus pipeline only counts the line as an error and continues.
(The claim's "parses to a non-object also fails" and "no variant skips"
parts are false; see the counterexample.) -/
theorem claim_C3 :
    (∀ (pre : List Str) (i : Nat) (line : Str) (post : List Str) (msg : String),
      (∀ l ∈ pre, pyStrip l = [] ∨ ∃ j, json_loads l = .ok j) →
      pyStrip line ≠ [] → json_loads line = .error msg →
      load_jsonl_aux i (pre ++ line :: post) = .error (i + pre.length, msg))
    ∧ (∀ (pre : List Str) (i : Nat) (line : Str) (post : List Str) (msg : String),
      (∀ l ∈ pre, pyStrip l = []
        ∨ ∃ j q b, json_loads l = .ok j ∧ clean_record j = some (q, b)) →
      pyStrip line ≠ [] → json_loads line = .error msg →
      fixFileRecords i (pre ++ line :: post)
        = .error (.valueError (i + pre.length) msg))
    ∧ (∀ (line : Str) (rest : List Str) (msg : String),
      pyStrip line ≠ [] → json_loads (pyStrip line) = .error msg →
      fix_browsers_json (line :: rest)
        = match fix_browsers_json rest with
          | some (ls, (t, f, u, e)) => some (ls, (t, f, u, e + 1))
          | none => none) :=
  ⟨fun pre i _ _ _ hpre hb he => load_jsonl_aux_error pre i hpre hb he,
   fun pre i _ _ _ hpre hb he => fixFileRecords_error pre i hpre hb he,
   fun _ rest _ hb he => fix_browsers_json_skip rest hb he⟩

theorem claim_C3_witness :
    load_jsonl_aux 1 ([] ++ ['x'] :: [])
      = .error (1 + List.length ([] : List Str), "Expecting value")
    ∧ fixFileRecords 1 ([] ++ ['x'] :: [])
      = .error (.valueError (1 + List.length ([] : List Str)) "Expecting value")
    ∧ fix_browsers_json (['x'] :: [])
      = match fix_browsers_json [] with
        | some (ls, (t, f, u, e)) => some (ls, (t, f, u, e + 1))
        | none => none :=
  ⟨claim_C3.1 [] 1 ['x'] [] "Expecting value"
      (fun l hl => absurd hl (List.not_mem_nil l)) (by decide) (by decide),
   claim_C3.2.1 [] 1 ['x'] [] "Expecting value"
      (fun l hl => absurd hl (List.not_mem_nil l)) (by decide) (by decide),
   claim_C3.2.2 ['x'] [] "Expecting value" (by decide) (by decide)⟩

/-- C3 fails as stated: the oswe loader accepts a non-object line, and
the Opus pipeline skips a malformed line and keeps going. -/
theorem claim_C3_cex :
    load_jsonl [['5']] = .ok [Json.num 5 0]
    ∧ fix_browsers_json [['x'], ['{', '}']]
      = some ([['{', '}']], (1, 0, 1, 1)) := by decide

/-- C4: the pipelines are idempotent — a second `fix_file` run on its own
output reports every record unchanged, and a second `fix_useragents` run
on its own output fixes zero records and returns the same list. -/
theorem claim_C4 :
    (∀ (lines out : List Str) (t f u : Nat),
      fix_file lines = .ok (out, (t, f, u)) → fix_file out = .ok (out, (t, 0, t)))
    ∧ (∀ (rs rs' : List Json) (n : Nat),
      fix_useragents rs = some (rs', n) → fix_useragents rs' = some (rs', 0)) := by
  constructor
  · intro lines out t f u h
    rw [fix_file] at h ⊢
    cases hfr : fixFileRecords 1 lines with
    | error e =>
        rw [hfr] at h
        contradiction
    | ok rn =>
        obtain ⟨recs, fixed⟩ := rn
        rw [hfr] at h
        simp only [Except.ok.injEq, Prod.mk.injEq] at h
        obtain ⟨h1, h2, -⟩ := h
        obtain ⟨hwf, hcl, -, -⟩ := fixFileRecords_spec lines 1 hfr
        subst h1
        subst h2
        rw [fixFileRecords_saved recs 1 hwf hcl]
        rfl
  · intro rs rs' n h
    exact (fix_useragents_spec h).2.1

theorem claim_C4_witness :
    fix_file [uaLineA] = .ok ([uaLineA], (1, 0, 1))
    ∧ fix_useragents [recA] = some ([recA], 0) :=
  ⟨claim_C4.1 [uaLineA] [uaLineA] 1 0 1 (by decide),
   claim_C4.2 [recASp] [recA] 1 (by decide)⟩

/-- C5: on a record whose `useragent` is absent or not a string, the oswe
normalizer is a no-op returning `changed = false`; the gpt normalizer
instead adds the key (stripping the `""` default) when absent and raises
when the value is not a string.  (The claim's "unchanged, no key added,
no error" is thus true only of the oswe variant; see the
counterexample.) -/
theorem claim_C5 :
    (∀ fields : List (Str × Json), List.lookup uaKey fields = none →
      fix_record (.obj fields) = some (.obj fields, false))
    ∧ (∀ (fields : List (Str × Json)) (v : Json),
      List.lookup uaKey fields = some v → (∀ s, v ≠ .str s) →
      fix_record (.obj fields) = some (.obj fields, false))
    ∧ (∀ fields : List (Str × Json), List.lookup uaKey fields = none →
      clean_record (.obj fields) = some (.obj (fields ++ [(uaKey, .str [])]), false))
    ∧ (∀ (fields : List (Str × Json)) (v : Json),
      List.lookup uaKey fields = some v → (∀ s, v ≠ .str s) →
      clean_record (.obj fields) = none) := by
  refine ⟨?_, ?_, ?_, ?_⟩
  · intro fields h
    refine fix_record_other ?_
    intro ua hua
    rw [h] at hua
    cases hua
  · intro fields v h hv
    refine fix_record_other ?_
    intro ua hua
    rw [h] at hua
    simp only [Option.some.injEq] at hua
    exact hv ua hua
  · intro fields h
    exact clean_record_absent h
  · intro fields v h hv
    exact clean_record_nonstr h hv

theorem claim_C5_witness :
    fix_record (.obj fsOS) = some (.obj fsOS, false)
    ∧ fix_record (.obj fsNum) = some (.obj fsNum, false)
    ∧ clean_record (.obj fsOS) = some (.obj (fsOS ++ [(uaKey, .str [])]), false)
    ∧ clean_record (.obj fsNum) = none :=
  ⟨claim_C5.1 fsOS (by decide),
   claim_C5.2.1 fsNum (Json.num 3 0) (by decide) (fun _ h => Json.noConfusion h),
   claim_C5.2.2.1 fsOS (by decide),
   claim_C5.2.2.2 fsNum (Json.num 3 0) (by decide) (fun _ h => Json.noConfusion h)⟩

/-- C5 fails as stated for the gpt variant: a missing `useragent` key is
added, and a non-string value raises instead of being left alone. -/
theorem claim_C5_cex :
    clean_record (.obj []) = some (.obj [(uaKey, Json.str [])], false)
    ∧ clean_record (.obj [(uaKey, Json.num 3 0)]) = none := by decide

/-- C6: all three normalizers, and the oswe pipeline as a whole, leave
every field other than `useragent` — value and relative order — exactly
as it was. -/
theorem claim_C6 :
    (∀ (p q : Json) (b : Bool), clean_record p = some (q, b) →
      otherFields q = otherFields p)
    ∧ (∀ (p q : Json) (b : Bool), fix_record p = some (q, b) →
      otherFields q = otherFields p)
    ∧ (∀ (p q : Json) (b : Bool), opus_fix_record p = some (q, b) →
      otherFields q = otherFields p)
    ∧ (∀ (rs rs' : List Json) (n : Nat), fix_useragents rs = some (rs', n) →
      List.map otherFields rs' = List.map otherFields rs) :=
  ⟨fun _ _ _ h => (clean_record_out h).2,
   fun _ _ _ h => (fix_record_out h).2,
   fun _ _ _ h => (opus_fix_record_out h).2,
   fun _ _ _ h => (fix_useragents_spec h).2.2.2.1⟩

theorem claim_C6_witness :
    otherFields (.obj [(['o', 's'], Json.str ['w']), (uaKey, Json.str ['a'])])
      = otherFields (.obj [(['o', 's'], Json.str ['w']), (uaKey, Json.str ['a', ' '])])
    ∧ List.map otherFields [recA] = List.map otherFields [recASp] :=
  ⟨claim_C6.1 (.obj [(['o', 's'], Json.str ['w']), (uaKey, Json.str ['a', ' '])])
      (.obj [(['o', 's'], Json.str ['w']), (uaKey, Json.str ['a'])]) true (by decide),
   claim_C6.2.2.2 [recASp] [recA] 1 (by decide)⟩

/-- C7: whenever a pipeline succeeds, its output has exactly as many
records as its input, in order: reloading the oswe output returns the
fixed list itself; the gpt totals equal the loaded count of both input
and output; the Opus totals equal the loaded count of the (stripped)
input, and its output reloads to that same count. -/
theorem claim_C7 :
    (∀ (lines : List Str) (recs recs' : List Json) (n : Nat),
      load_jsonl lines = .ok recs → fix_useragents recs = some (recs', n) →
      load_jsonl (save_jsonl recs') = .ok recs' ∧ recs'.length = recs.length)
    ∧ (∀ (lines out : List Str) (t f u : Nat),
      fix_file lines = .ok (out, (t, f, u)) →
      (load_jsonl lines).map List.length = .ok t
        ∧ (load_jsonl out).map List.length = .ok t)
    ∧ (∀ (lines : List Str) (origs : List Json) (ls : List Str) (t f u e : Nat),
      load_jsonl (lines.map pyStrip) = .ok origs →
      fix_browsers_json lines = some (ls, (t, f, u, e)) →
      t = origs.length ∧ (load_jsonl ls).map List.length = .ok t) := by
  refine ⟨?_, ?_, ?_⟩
  · intro lines recs recs' n hload hfix
    obtain ⟨hlen, -, -, -, hwf⟩ := fix_useragents_spec hfix
    exact ⟨load_jsonl_save recs' (hwf (load_jsonl_wf hload)), hlen⟩
  · intro lines out t f u h
    rw [fix_file] at h
    cases hfr : fixFileRecords 1 lines with
    | error e =>
        rw [hfr] at h
        contradiction
    | ok rn =>
        obtain ⟨recs, fixed⟩ := rn
        rw [hfr] at h
        simp only [Except.ok.injEq, Prod.mk.injEq] at h
        obtain ⟨h1, h2, -⟩ := h
        obtain ⟨hwf, -, -, hload⟩ := fixFileRecords_spec lines 1 hfr
        constructor
        · rw [← h2]
          exact hload
        · rw [← h1, ← h2]
          show (load_jsonl (save_jsonl recs)).map List.length = _
          rw [load_jsonl_save recs hwf]
          rfl
  · intro lines origs ls t f u e hload hfix
    obtain ⟨ht, -, recs, hls, hlen, hwf⟩ := fix_browsers_json_ok lines 1 hload hfix
    refine ⟨ht, ?_⟩
    rw [hls, load_jsonl_save recs hwf]
    simp only [Except.map, Except.ok.injEq, hlen]

theorem claim_C7_witness :
    (load_jsonl (save_jsonl [recA]) = .ok [recA]
      ∧ List.length [recA] = List.length [recASp])
    ∧ ((load_jsonl [uaLineASp]).map List.length = .ok 1
      ∧ (load_jsonl [uaLineA]).map List.length = .ok 1)
    ∧ (1 = List.length [recASp]
      ∧ (load_jsonl [uaLineA]).map List.length = .ok 1) :=
  ⟨claim_C7.1 [uaLineASp] [recASp] [recA] 1 (by decide) (by decide),
   claim_C7.2.1 [uaLineASp] [uaLineA] 1 1 0 (by decide),
   claim_C7.2.2 [uaLineASp] [recASp] [uaLineA] 1 1 0 0 (by decide) (by decide)⟩

/-- C8: a record whose field values are strings or canonical numbers
round-trips exactly through one `json.dumps` line and `json.loads`, with
field order kept; and no character at or above U+0020 except `"` and `\`
is ever escaped, so non-ASCII text passes through verbatim. -/
theorem claim_C8 :
    (∀ fields : List (Str × Json), noDupKeys fields = true →
      fields.all (fun kv => strOrNum kv.2) = true →
      json_loads (dumps (.obj fields)) = .ok (.obj fields))
    ∧ (∀ c : Char, 0x20 ≤ c.toNat → c ≠ '"' → c ≠ '\\' → escChar c = [c]) := by
  constructor
  · intro fields hnd hall
    apply json_loads_dumps
    show (noDupKeys fields && jsonFieldsWf fields) = true
    rw [Bool.and_eq_true]
    exact ⟨hnd, jsonFieldsWf_of_all hall⟩
  · intro c h1 h2 h3
    exact escChar_plain h1 h2 h3

theorem claim_C8_witness :
    json_loads (dumps (.obj [(['n'], Json.str ['P', 'é']), (['v'], Json.num 5 0)]))
      = .ok (.obj [(['n'], Json.str ['P', 'é']), (['v'], Json.num 5 0)])
    ∧ escChar 'é' = ['é'] :=
  ⟨claim_C8.1 [(['n'], Json.str ['P', 'é']), (['v'], Json.num 5 0)]
      (by decide) (by decide),
   claim_C8.2 'é' (by decide) (by decide) (by decide)⟩

/-- C9: the gpt fallback validator accepts exactly the strings with no
surrounding space and no codepoint below 0x20 or equal to 0x7F, as the
claim states; the oswe fallback instead rejects only CR, LF and NUL
beyond the surrounding-space check (and rejects every non-string), so it
accepts control characters such as TAB — see the counterexample. -/
theorem claim_C9 :
    (∀ s : Str, fallback_validator s = spec_header_ok s)
    ∧ (∀ s : Str, simple_header_validator (.str s)
        = (!(pyEndswith ' ' s || pyStartswith ' ' s)
           && !(s.any (fun ch => ch == '\r' || ch == '\n' || ch == '\x00'))))
    ∧ (∀ v : Json, (∀ s, v ≠ .str s) → simple_header_validator v = false) := by
  refine ⟨?_, ?_, ?_⟩
  · intro s
    rw [fallback_validator, spec_header_ok]
    cases h1 : pyStartswith ' ' s with
    | true =>
        rw [if_pos (by simp)]
        simp
    | false =>
        cases h2 : pyEndswith ' ' s with
        | true =>
            rw [if_pos (by simp)]
            simp
        | false =>
            rw [if_neg (by simp)]
            simp only [Bool.not_false, Bool.true_and]
            exact (bool_all_not_any _ s).symm
  · intro s
    rw [simple_header_validator]
    by_cases h1 : (pyEndswith ' ' s || pyStartswith ' ' s) = true
    · rw [if_pos h1, h1]
      rfl
    · have h1f : (pyEndswith ' ' s || pyStartswith ' ' s) = false := by
        cases hx : (pyEndswith ' ' s || pyStartswith ' ' s) with
        | true => exact absurd hx h1
        | false => rfl
      rw [if_neg h1, h1f]
      by_cases h2 : (s.any fun ch => ch == '\r' || ch == '\n' || ch == '\x00') = true
      · rw [if_pos h2, h2]
        rfl
      · have h2f : (s.any fun ch => ch == '\r' || ch == '\n' || ch == '\x00') = false := by
          cases hx : (s.any fun ch => ch == '\r' || ch == '\n' || ch == '\x00') with
          | true => exact absurd hx h2
          | false => rfl
        rw [if_neg h2, h2f]
        rfl
  · intro v hv
    cases v with
    | str s => exact absurd rfl (hv s)
    | null => rfl
    | jbool b => rfl
    | num m e => rfl
    | arr xs => rfl
    | obj fs => rfl

theorem claim_C9_witness :
    fallback_validator ['a', 'b'] = spec_header_ok ['a', 'b']
    ∧ simple_header_validator (Json.num 3 0) = false :=
  ⟨claim_C9.1 ['a', 'b'],
   claim_C9.2.2 (Json.num 3 0) (fun _ h => Json.noConfusion h)⟩

/-- C9 fails as stated for the oswe fallback: it accepts a TAB, a control
character below 0x20 that the claimed rule rejects. -/
theorem claim_C9_cex :
    simple_header_validator (.str ['a', '\t', 'b']) = true
    ∧ ('\t').toNat < 0x20
    ∧ spec_header_ok ['a', '\t', 'b'] = false := by decide

/-- C10: each normalizer's output value is a contiguous segment of the
input value (so never longer, with no character inserted, replaced or
reordered): gpt's `strip` yields an inner segment, oswe's `rstrip(" ")`
a front segment, and Opus's conditional `rstrip` a front segment. -/
theorem claim_C10 : ∀ ua : Str,
    (pyStrip ua <:+: ua ∧ (pyStrip ua).length ≤ ua.length)
    ∧ (rstripSpaces ua <+: ua ∧ (rstripSpaces ua).length ≤ ua.length)
    ∧ ((if pyEndswith ' ' ua then pyRstrip ua else ua) <:+: ua
        ∧ (if pyEndswith ' ' ua then pyRstrip ua else ua).length ≤ ua.length) := by
  intro ua
  refine ⟨⟨pyStrip_sub ua, sub_length_le (pyStrip_sub ua)⟩, ⟨?_, ?_⟩, ⟨?_, ?_⟩⟩
  · exact rstripWith_front _ ua
  · exact sub_length_le (front_sub (rstripWith_front _ ua))
  · by_cases h : pyEndswith ' ' ua = true
    · rw [if_pos h]
      exact front_sub (rstripWith_front _ ua)
    · rw [if_neg h]
  · by_cases h : pyEndswith ' ' ua = true
    · rw [if_pos h]
      exact sub_length_le (front_sub (rstripWith_front _ ua))
    · rw [if_neg h]

end UA
